import Mathlib

/-!
# feedback-arc-set-finder: ring buffer, shuffle and candidate collection

A shallow embedding of `circular_buffer.c` and of the candidate generation of
`generator.c`.

Conventions of the embedding

* A C array is a map from the values of its index expression to cells: the
  rows of `entries` and the cells of `entryEdgeNumbers` are indexed by the
  `unsigned int` counters `head` / `tail` (a `Nat`), the cells of a row and of
  the caller's `entry` by the `int` loop counter (an `Int`).  The bounds of
  `head` and `tail` are proved separately.  A store of `writeBuffer` at a
  negative cell index, which in C falls into the row before or below the
  buffer, is kept in a cell of negative index of the same row: the statements
  about the records are made for start values `0 ≤ i` of its loop counter only.
* The scratch arrays `U` and `V` of `randomizer` have
  `verticeCount * (verticeCount + 1) / 2` cells each.  `collect` and
  `randomizer` give what the loops collect when the arrays are long enough;
  `collectChecked` and `randomizerChecked` watch the bound and yield `none`
  once a store falls outside the arrays.
* `unsigned int` arithmetic is arithmetic modulo `2 ^ 32` on `Nat`.
* `int` values that are only stored, copied and compared are `Int`.
-/

namespace FAS

/-! ## generator.h / circular_buffer.h : the data model -/

/-- The struct `edge` of `generator.h`: the arc `U → V`. -/
structure edge where
  U : Int
  V : Int
deriving DecidableEq

/-- The struct `buffer` of `circular_buffer.h`. -/
structure buffer where
  entries : Nat → Int → edge
  entryEdgeNumbers : Nat → Int
  head : Nat
  tail : Nat
  numberofEntries : Nat
  size : Nat

/-- The modulus of `unsigned int` arithmetic. -/
def UINT_MOD : Nat := 2 ^ 32

/-- The four counters of the buffer hold values of type `unsigned int`. -/
def buffer.inRange (b : buffer) : Prop :=
  b.head < UINT_MOD ∧ b.tail < UINT_MOD ∧ b.numberofEntries < UINT_MOD ∧ b.size < UINT_MOD

instance (b : buffer) : Decidable b.inRange := by
  unfold buffer.inRange; infer_instance

/-! ## circular_buffer.c -/

/-- The function `initialize` (a reserved word of Lean, hence `initBuffer`): sets the four counters, leaves the arrays as they are. -/
def initBuffer (b : buffer) : buffer :=
  { b with size := 32, numberofEntries := 0, head := 0, tail := 0 }

/-- The function `bufferEmpty`. -/
def bufferEmpty (b : buffer) : Bool := b.numberofEntries == 0

/-- The function `bufferFull`. -/
def bufferFull (b : buffer) : Bool := b.numberofEntries == b.size

/-- The sentinel edge `(-1,-1)` stored in the unused cells of a record. -/
def sentinel : edge := ⟨-1, -1⟩

/-- One pass through the body of the `for` loop of `writeBuffer`, for the
counter value `i`, on the row `b->entries[b->tail]`. -/
def writeCell (row : Int → edge) (entry : Int → edge) (edgeNumber : Int) (i : Int) :
    Int → edge :=
  if i < edgeNumber then Function.update row i ⟨(entry i).U, (entry i).V⟩
  else Function.update row i ⟨-1, -1⟩

/-- The `for` loop of `writeBuffer`, `for(int i; i < 8; i++)`, from the counter
value `i` on; `fuel` is the number of passes left. -/
def writeLoop (entry : Int → edge) (edgeNumber : Int) : Nat → Int → (Int → edge) → (Int → edge)
  | 0, _, row => row
  | fuel + 1, i, row =>
      if i < 8 then writeLoop entry edgeNumber fuel (i + 1) (writeCell row entry edgeNumber i)
      else row

/-- The function `writeBuffer`.  The source declares the loop counter without
an initial value (`for(int i; i < 8; i++)`), so the value `i` it starts from is
an argument of the model.  The result is the returned `bool` and the buffer
after the call.  For `i < 0` the cells of negative index stand for the stores
the C loop makes below the row `entries[tail]`. -/
def writeBuffer (b : buffer) (entry : Int → edge) (edgeNumber : Int) (i : Int) :
    Bool × buffer :=
  if bufferFull b then (false, b)
  else
    let row := writeLoop entry edgeNumber (8 - i).toNat i (b.entries b.tail)
    (true,
      { b with
        entries := Function.update b.entries b.tail row
        entryEdgeNumbers := Function.update b.entryEdgeNumbers b.tail edgeNumber
        numberofEntries := (b.numberofEntries + 1) % UINT_MOD
        tail := ((b.tail + 1) % UINT_MOD) % b.size })

/-- What `readBuffer` hands back: the returned pointer (`none` is the null
pointer, `some r` is `b->entries[r]`), the caller's `*edgeNumber` after the
call and the buffer after the call. -/
structure ReadResult where
  read : Option Nat
  edgeNumber : Int
  b : buffer

/-- The function `readBuffer`; `edgeNumber` is the caller's `*edgeNumber` on entry. -/
def readBuffer (b : buffer) (edgeNumber : Int) : ReadResult :=
  if bufferEmpty b then ⟨none, edgeNumber, b⟩
  else
    ⟨some b.head, b.entryEdgeNumbers b.head,
      { b with
        numberofEntries := (b.numberofEntries + (UINT_MOD - 1)) % UINT_MOD
        head := ((b.head + 1) % UINT_MOD) % b.size }⟩

/-- The record a pointer returned by `readBuffer` points to. -/
def recordAt (b : buffer) (r : Nat) : Int → edge := b.entries r

/-- A buffer whose memory is all zero, as a fresh shared segment is. -/
def zeroBuffer : buffer := ⟨fun _ _ => ⟨0, 0⟩, fun _ => 0, 0, 0, 0, 0⟩

/-- The buffer states reachable from `initialize` by calls of `writeBuffer`
and `readBuffer`, whatever their arguments and whatever they return. -/
inductive Reachable : buffer → Prop
  | init (b0 : buffer) : Reachable (initBuffer b0)
  | write (b : buffer) (entry : Int → edge) (edgeNumber i : Int) :
      Reachable b → Reachable (writeBuffer b entry edgeNumber i).2
  | read (b : buffer) (edgeNumber : Int) :
      Reachable b → Reachable (readBuffer b edgeNumber).b


/-! ## generator.c -/

/-- The three assignments `tmp = list[j]; list[j] = list[i]; list[i] = tmp;`. -/
def swapCells (list : List Int) (i j : Nat) : List Int :=
  let tmp := list.getD j 0
  let list1 := list.set j (list.getD i 0)
  list1.set i tmp

/-- The loop `for (i = n - 1; i > 0; i--)` of `fisherYates` from the counter
value `i` on; `rand k` is the value the `k`-th call of `rand()` returns (never
negative) and `k` counts the calls made so far. -/
def fisherYatesLoop (rand : Nat → Nat) : Nat → Nat → List Int → List Int
  | 0, _, list => list
  | i + 1, k, list =>
      let j := rand k % (i + 1 + 1)
      fisherYatesLoop rand i (k + 1) (swapCells list (i + 1) j)

/-- The function `fisherYates`: the array after the call. -/
def fisherYates (list : List Int) (n : Int) (rand : Nat → Nat) : List Int :=
  fisherYatesLoop rand (n - 1).toNat 0 list

/-- The body of the innermost loop of `randomizer` for the counters `i`, `j`,
`k`: the edges collected so far (the pairs `U[x]`, `V[x]` for `x < listIndex`)
after the pass. -/
def collectStep (vertices : List Int) (edges : List edge) (i j : Nat) (acc : List edge)
    (k : Nat) : List edge :=
  if (edges.getD k ⟨0, 0⟩).U = vertices.getD j 0 ∧ (edges.getD k ⟨0, 0⟩).V = vertices.getD i 0 then
    acc ++ [⟨vertices.getD j 0, vertices.getD i 0⟩]
  else acc

/-- The three nested loops of `randomizer` over the shuffled array: the pairs
`(U[x], V[x])` for `x < listIndex` once the loops are done, the scratch arrays
being taken long enough (`collectChecked` watches their bound). -/
def collect (vertices : List Int) (verticeCount : Int) (edges : List edge) (edgeCount : Int) :
    List edge :=
  (List.range (verticeCount - 1).toNat).foldl
    (fun acc i =>
      (List.range' (i + 1) (verticeCount.toNat - (i + 1))).foldl
        (fun acc j => (List.range edgeCount.toNat).foldl (collectStep vertices edges i j) acc)
        acc)
    []

/-- What `randomizer` leaves behind: the array `vertices` (shuffled in place),
the returned edge array and `*solutionCount`. -/
structure RandomizerResult where
  vertices : List Int
  solution : List edge
  solutionCount : Int

/-- The function `randomizer`, the scratch arrays being taken long enough
(`randomizerChecked` watches their bound). -/
def randomizer (vertices : List Int) (verticeCount : Int) (edges : List edge) (edgeCount : Int)
    (rand : Nat → Nat) : RandomizerResult :=
  let shuffled := fisherYates vertices verticeCount rand
  let solution := collect shuffled verticeCount edges edgeCount
  ⟨shuffled, solution, solution.length⟩

/-! ## Notions of the specification -/

/-- The edge `e` points backward in the order `vertices`: both ends occur and
`e.U` stands at a strictly later position than `e.V`. -/
def backward (vertices : List Int) (e : edge) : Prop :=
  vertices.indexOf e.V < vertices.indexOf e.U ∧ vertices.indexOf e.U < vertices.length

instance (vertices : List Int) (e : edge) : Decidable (backward vertices e) := by
  unfold backward; infer_instance

/-- The graph left after removing the edges of `solution` from `edges`. -/
def removeEdges (edges solution : List edge) : List edge :=
  edges.filter (fun e => e ∉ solution)

/-- There is an arc `u → v` in the graph `g`. -/
def arc (g : List edge) (u v : Int) : Prop := (⟨u, v⟩ : edge) ∈ g

/-- The graph `g` has no directed cycle: no vertex reaches itself along one or more arcs. -/
def acyclic (g : List edge) : Prop := ∀ v : Int, ¬ Relation.TransGen (arc g) v v


/-! ## Call sequences on the buffer -/

/-- One call on the buffer: `writeBuffer(b, entry, edgeNumber)` entered with the
loop counter holding `i`, or `readBuffer(b, &edgeNumber)`. -/
inductive Call where
  | write (entry : Int → edge) (edgeNumber : Int) (i : Int)
  | read (edgeNumber : Int)

/-- The arguments of a `writeBuffer` call that returned true. -/
structure Written where
  entry : Int → edge
  edgeNumber : Int

/-- What a `readBuffer` call that returned a record handed back: the record
behind the returned pointer at the time of the return, and `*edgeNumber`. -/
structure ReadOut where
  record : Int → edge
  edgeNumber : Int

/-- The buffer after a sequence of calls, the successful writes and the
successful reads, each in call order. -/
structure Trace where
  b : buffer
  writes : List Written
  reads : List ReadOut

/-- Runs a sequence of calls on the buffer `b`. -/
def runCalls : buffer → List Call → Trace
  | b, [] => ⟨b, [], []⟩
  | b, Call.write entry edgeNumber i :: cs =>
      let w := writeBuffer b entry edgeNumber i
      let t := runCalls w.2 cs
      if w.1 then ⟨t.b, ⟨entry, edgeNumber⟩ :: t.writes, t.reads⟩ else t
  | b, Call.read edgeNumber :: cs =>
      let r := readBuffer b edgeNumber
      let t := runCalls r.b cs
      match r.read with
      | some p => ⟨t.b, t.writes, ⟨recordAt r.b p, r.edgeNumber⟩ :: t.reads⟩
      | none => t

/-- The read `r` hands back the count and the first `edgeNumber` edges of the write `w`. -/
def agrees (w : Written) (r : ReadOut) : Prop :=
  r.edgeNumber = w.edgeNumber ∧
  ∀ c : Int, 0 ≤ c → c < w.edgeNumber → c < 8 → r.record c = w.entry c

/-- The FIFO property of a trace: the `k`-th successful read agrees with the
`k`-th successful write, for every successful read. -/
def Fifo (t : Trace) : Prop :=
  List.Forall₂ agrees (t.writes.take t.reads.length) t.reads

/-- The row `r` of the buffer holds the written record `w`. -/
def rowHolds (b : buffer) (r : Nat) (w : Written) : Prop :=
  b.entryEdgeNumbers r = w.edgeNumber ∧
  ∀ c : Int, 0 ≤ c → c < w.edgeNumber → c < 8 → b.entries r c = w.entry c

/-- The buffer `b` represents the queue `q` of records written and not yet read. -/
def Rep (b : buffer) (q : List Written) : Prop :=
  b.size = 32 ∧ b.head < 32 ∧ b.numberofEntries = q.length ∧ q.length ≤ 32 ∧
  b.tail = (b.head + q.length) % 32 ∧
  ∀ (k : Nat) (w : Written), q.get? k = some w → rowHolds b ((b.head + k) % 32) w

/-- Every `writeBuffer` call of the sequence is entered with the loop counter at 0. -/
def startAtZero : List Call → Prop
  | [] => True
  | Call.write _ _ i :: cs => i = 0 ∧ startAtZero cs
  | Call.read _ :: cs => startAtZero cs


/-! ## Auxiliary notions and sample data -/

/-- The bounds every reachable buffer state satisfies. -/
def Bounds (b : buffer) : Prop :=
  b.numberofEntries ≤ b.size ∧ b.size = 32 ∧ b.head < 32 ∧ b.tail < 32

/-- A non-empty buffer: one record with count 3 at row 5. -/
def sampleBuffer : buffer :=
  ⟨fun _ _ => ⟨0, 0⟩, fun r => if r = 5 then 3 else 0, 5, 6, 1, 32⟩

/-- The record `(1,2)` padded with sentinels, as the generator builds `toWrite`. -/
def oneEdge : Int → edge := fun c => if c = 0 then ⟨1, 2⟩ else ⟨-1, -1⟩

/-- The record `(3,4)` padded with sentinels. -/
def otherEdge : Int → edge := fun c => if c = 0 then ⟨3, 4⟩ else ⟨-1, -1⟩


/-! ## generator.c : deduplication and the producer loop -/

/-- The function `inList`: 1 when one of the first `listLen` cells holds `element`, else 0. -/
def inList (list : List Int) (element : Int) (listLen : Nat) : Int :=
  if (List.range listLen).any (fun i => list.getD i 0 == element) then 1 else 0

/-- The body of the loop of `duplicateRemover` for the counter `i`; `uniqueList`
stands for the cells `uniqueList[0 .. uniqueIndex)`, so `uniqueIndex` is its length. -/
def duplicateRemoverStep (list : List Int) (uniqueList : List Int) (i : Nat) : List Int :=
  if inList uniqueList (list.getD i 0) uniqueList.length = 0 then uniqueList ++ [list.getD i 0]
  else uniqueList

/-- What `duplicateRemover` hands back: the returned array and `*uniqueCount`. -/
structure DuplicateRemoverResult where
  uniqueList : List Int
  uniqueCount : Int

/-- The function `duplicateRemover` (the allocations are taken to succeed). -/
def duplicateRemover (list : List Int) (listLen : Int) : DuplicateRemoverResult :=
  let uniqueList := (List.range listLen.toNat).foldl (duplicateRemoverStep list) []
  ⟨uniqueList, uniqueList.length⟩

/-- The loop `for (int i = 0; i < 8; i++)` of the generator's `main` that fills `toWrite`. -/
def fillToWrite (solution : List edge) (edgeNumber : Int) (toWrite : Int → edge) : Int → edge :=
  (List.range 8).foldl
    (fun (toWrite : Int → edge) (i : Nat) =>
      if (i : Int) < edgeNumber then
        Function.update toWrite (i : Int)
          ⟨(solution.getD i ⟨0, 0⟩).U, (solution.getD i ⟨0, 0⟩).V⟩
      else Function.update toWrite (i : Int) ⟨-1, -1⟩)
    toWrite

/-- What one pass through the body of the generator's `while` loop leaves
behind, between the waits and the posts: the generator's own arrays, the call of
`writeBuffer` it made (if any) with the value that call returned, and the buffer. -/
structure GeneratorPass where
  uniqueVertices : List Int
  solution : List edge
  edgeNumber : Int
  toWrite : Int → edge
  call : Option Call
  returned : Option Bool
  b : buffer

/-- The body of the generator's `while` loop between `sem_wait(s_mut)` and
`sem_post(s_mut)`; `i` is the value the loop counter of `writeBuffer` starts from. -/
def generatorPass (b : buffer) (uniqueVertices : List Int) (uniqueVerticeCount : Int)
    (edges : List edge) (edgeCount : Int) (toWrite : Int → edge) (rand : Nat → Nat) (i : Int) :
    GeneratorPass :=
  let r := randomizer uniqueVertices uniqueVerticeCount edges edgeCount rand
  if r.solutionCount < 9 then
    let toWrite1 := fillToWrite r.solution r.solutionCount toWrite
    let w := writeBuffer b toWrite1 r.solutionCount i
    ⟨r.vertices, r.solution, r.solutionCount, toWrite1,
      some (Call.write toWrite1 r.solutionCount i), some w.1, w.2⟩
  else ⟨r.vertices, r.solution, r.solutionCount, toWrite, none, none, b⟩

/-! ## supervisor.c : the consumer loop -/

/-- The constant `INT_MAX` of `limits.h` for a 32-bit `int`. -/
def INT_MAX : Int := 2147483647

/-- A line the supervisor prints inside its loop. -/
inductive Report where
  | acyclic
  | solution (edges : Int) (record : Option Nat)
deriving DecidableEq

/-- The locals of the supervisor's `main`; a pointer is `none` (null) or the row it points to. -/
structure Supervisor where
  bestSolution : Option Nat
  bestSolutionEdges : Int
  tmpEdges : Int
  tmpSolution : Option Nat
  output : List Report

/-- The body of the supervisor's `while` loop after the call of `readBuffer`
returned the pointer `read` and left `edgeNumber` in `tmpEdges`. -/
def supervisorUpdate (sv : Supervisor) (read : Option Nat) (edgeNumber : Int) : Supervisor :=
  let sv1 := { sv with tmpSolution := read, tmpEdges := edgeNumber }
  if sv1.tmpEdges < sv1.bestSolutionEdges then
    let sv2 := { sv1 with bestSolution := sv1.tmpSolution, bestSolutionEdges := sv1.tmpEdges }
    if sv2.bestSolutionEdges = 0 then { sv2 with output := sv2.output ++ [Report.acyclic] }
    else
      { sv2 with
        output := sv2.output ++ [Report.solution sv2.bestSolutionEdges sv2.bestSolution] }
  else sv1

/-- The body of the supervisor's `while` loop between `sem_wait(s_used)` and `sem_post(s_free)`. -/
def supervisorPass (sv : Supervisor) (b : buffer) : Supervisor × buffer :=
  let r := readBuffer b sv.tmpEdges
  (supervisorUpdate sv r.read r.edgeNumber, r.b)

/-- The supervisor's `while` loop fed with the results of successive successful
reads (pointer and count), as long as `bestSolutionEdges != 0` and reads come. -/
def supervisorLoop : Supervisor → List (Nat × Int) → Supervisor
  | sv, [] => sv
  | sv, (p, c) :: rest =>
      if sv.bestSolutionEdges ≠ 0 then supervisorLoop (supervisorUpdate sv (some p) c) rest
      else sv

/-- The locals of the supervisor when it enters its loop; the two pointers are
declared without a value. -/
def supervisorStart (bestSolution tmpSolution : Option Nat) : Supervisor :=
  ⟨bestSolution, INT_MAX, 0, tmpSolution, []⟩

/-! ## The producer/consumer system, one loop iteration per step -/

/-- The state shared by the processes between two loop iterations: the shared
memory (`accessible`, the buffer), the values of the semaphores `s_free` and
`s_used`, the supervisor's flag `RUN` and its locals. The semaphore `s_mut` is
free between iterations. -/
structure SharedState where
  accessible : Int
  b : buffer
  free_slots : Nat
  used_slots : Nat
  RUN : Int
  sup : Supervisor

/-- The state when the supervisor enters its loop: buffer initialised,
`s_free = 32`, `s_used = 0`. -/
def startState (b0 : buffer) (bestSolution tmpSolution : Option Nat) : SharedState :=
  ⟨1, initBuffer b0, 32, 0, 1, supervisorStart bestSolution tmpSolution⟩

/-- One iteration of a generator's `while` loop: wait on `s_free`, the pass, post on `s_used`. -/
def generatorStep (s : SharedState) (uniqueVertices : List Int) (uniqueVerticeCount : Int)
    (edges : List edge) (edgeCount : Int) (toWrite : Int → edge) (rand : Nat → Nat) (i : Int) :
    SharedState :=
  { s with
    free_slots := s.free_slots - 1
    b := (generatorPass s.b uniqueVertices uniqueVerticeCount edges edgeCount toWrite rand i).b
    used_slots := s.used_slots + 1 }

/-- One iteration of the supervisor's `while` loop: wait on `s_used`, the pass, post on `s_free`. -/
def supervisorStep (s : SharedState) : SharedState :=
  { s with
    used_slots := s.used_slots - 1
    sup := (supervisorPass s.sup s.b).1
    b := (supervisorPass s.sup s.b).2
    free_slots := s.free_slots + 1 }

/-- The states the system reaches: a generator iterates while `accessible == 1`
once `s_free` lets it pass, the supervisor iterates while `RUN == 1` and
`bestSolutionEdges != 0` once `s_used` lets it pass, a signal clears `RUN`, and
the supervisor leaving its loop clears `accessible`. -/
inductive SysReachable : SharedState → Prop
  | start (b0 : buffer) (bestSolution tmpSolution : Option Nat) :
      SysReachable (startState b0 bestSolution tmpSolution)
  | generator (s : SharedState) (uniqueVertices : List Int) (uniqueVerticeCount : Int)
      (edges : List edge) (edgeCount : Int) (toWrite : Int → edge) (rand : Nat → Nat) (i : Int) :
      SysReachable s → s.accessible = 1 → 0 < s.free_slots →
      SysReachable
        (generatorStep s uniqueVertices uniqueVerticeCount edges edgeCount toWrite rand i)
  | supervisor (s : SharedState) :
      SysReachable s → s.RUN = 1 → s.sup.bestSolutionEdges ≠ 0 → 0 < s.used_slots →
      SysReachable (supervisorStep s)
  | signal (s : SharedState) : SysReachable s → SysReachable { s with RUN := 0 }
  | leave (s : SharedState) :
      SysReachable s → ¬ (s.RUN = 1 ∧ s.sup.bestSolutionEdges ≠ 0) →
      SysReachable { s with accessible := 0 }

/-! ## Further notions of the specification -/

/-- The values of a list, each kept at its first occurrence. -/
def firstOccurrences : List Int → List Int
  | [] => []
  | a :: l => a :: (firstOccurrences l).filter (fun x => decide (x ≠ a))

/-- The stream of `rand()` values under which `fisherYates` on `n` cells picks
`j = c i` in the pass with counter `i`, for a choice vector `c` with `c i ≤ i`:
the call number `k` is made in the pass with counter `n - 1 - k`. -/
def drawsOf (n : Nat) (c : Nat → Nat) : Nat → Nat := fun k => c (n - 1 - k)

/-- The vector `c` is a choice vector for `n` cells: `0 ≤ c i ≤ i` for `i = n - 1` down to 1. -/
def choiceVector (n : Nat) (c : Nat → Nat) : Prop := ∀ i : Nat, 1 ≤ i → i < n → c i ≤ i

/-- The loop of `fisherYates` from the counter value `i` on when the pass with
counter `m` draws `c m`: `fisherYatesLoop` with the draws named by the counter
instead of by the number of the call. -/
def shuffleBy (c : Nat → Nat) : Nat → List Int → List Int
  | 0, list => list
  | i + 1, list => shuffleBy c i (swapCells list (i + 1) (c (i + 1) % (i + 1 + 1)))

/-- What holds between the steps of the system: the two semaphores add up to
the capacity, the buffer holds at most `used_slots` records, and the bounds of
the buffer hold. -/
def Accounting (s : SharedState) : Prop :=
  s.free_slots + s.used_slots = 32 ∧ s.b.numberofEntries ≤ s.used_slots ∧ Bounds s.b

/-- The graph of the first scenario of the specification: the 3-cycle. -/
def triangle : List edge := [⟨1, 2⟩, ⟨2, 3⟩, ⟨3, 1⟩]

/-- The array `vertices` the generator's `main` builds from its arguments: both
vertices of every edge, in order. -/
def vertexArray (edges : List edge) : List Int := edges.flatMap (fun e => [e.U, e.V])

/-- A graph on the vertices 1..5 with eleven edges, in the order of the command
line; it has the cycle `1 → 2 → 1`. -/
def denseEdges : List edge :=
  [⟨1, 2⟩, ⟨1, 3⟩, ⟨1, 4⟩, ⟨1, 5⟩, ⟨3, 2⟩, ⟨4, 2⟩, ⟨4, 3⟩, ⟨5, 2⟩, ⟨5, 3⟩, ⟨5, 4⟩, ⟨2, 1⟩]

/-- A stream of `rand()` values that starts 5, 8, 3, 2. -/
def sampleDraws : Nat → Nat := fun k => [5, 8, 3, 2].getD k 0

/-- The state after the first iteration of a generator started on `denseEdges`,
its draws being `sampleDraws`, from the state in which the supervisor enters
its loop. -/
def denseFirstStep : SharedState :=
  generatorStep (startState zeroBuffer none none)
    (duplicateRemover (vertexArray denseEdges) 22).uniqueList 5 denseEdges 11
    (fun _ => ⟨0, 0⟩) sampleDraws 0

/-- A graph with a self-loop edge: `1-1`, `1-2`, `2-3`. -/
def loopEdges : List edge := [⟨1, 1⟩, ⟨1, 2⟩, ⟨2, 3⟩]


/-! ## generator.c : the bounds of the scratch arrays of `randomizer` -/

/-- The number of cells of each of the scratch arrays `U` and `V` of
`randomizer`: `verticeCount * (verticeCount + 1) / 2`, the division being that of C. -/
def scratchCapacity (verticeCount : Int) : Int := (verticeCount * (verticeCount + 1)).tdiv 2

/-- A list of collected edges as far as it fits the scratch arrays: `none`
stands for a run in which a store outside `U` and `V` has happened. -/
def withinCapacity (capacity : Int) (collected : List edge) : Option (List edge) :=
  if (collected.length : Int) ≤ capacity then some collected else none

/-- The body of the innermost loop of `randomizer` with the bound of the scratch
arrays watched: the store `U[listIndex] = ..; V[listIndex] = ..` is inside the
arrays when `listIndex < capacity`; here `listIndex` is the number of edges
collected so far. -/
def collectStepChecked (capacity : Int) (vertices : List Int) (edges : List edge) (i j : Nat)
    (acc : Option (List edge)) (k : Nat) : Option (List edge) :=
  match acc with
  | none => none
  | some collected =>
      if (edges.getD k ⟨0, 0⟩).U = vertices.getD j 0 ∧
          (edges.getD k ⟨0, 0⟩).V = vertices.getD i 0 then
        if (collected.length : Int) < capacity then
          some (collected ++ [⟨vertices.getD j 0, vertices.getD i 0⟩])
        else none
      else some collected

/-- The three nested loops of `randomizer` with the bound of the scratch arrays
watched: the collected edges when every store fell inside `U` and `V`, else `none`. -/
def collectChecked (vertices : List Int) (verticeCount : Int) (edges : List edge)
    (edgeCount : Int) : Option (List edge) :=
  (List.range (verticeCount - 1).toNat).foldl
    (fun acc i =>
      (List.range' (i + 1) (verticeCount.toNat - (i + 1))).foldl
        (fun acc j =>
          (List.range edgeCount.toNat).foldl
            (collectStepChecked (scratchCapacity verticeCount) vertices edges i j) acc)
        acc)
    (some [])

/-- The function `randomizer` with the bound of the scratch arrays watched:
what it leaves behind when every store fell inside `U` and `V`, else `none`. -/
def randomizerChecked (vertices : List Int) (verticeCount : Int) (edges : List edge)
    (edgeCount : Int) (rand : Nat → Nat) : Option RandomizerResult :=
  let shuffled := fisherYates vertices verticeCount rand
  match collectChecked shuffled verticeCount edges edgeCount with
  | some solution => some ⟨shuffled, solution, solution.length⟩
  | none => none

/-- An edge list the generator accepts, with a cycle and a repeated edge:
`1-2`, then `2-1` four times. -/
def cycleRepeatedEdges : List edge := [⟨1, 2⟩, ⟨2, 1⟩, ⟨2, 1⟩, ⟨2, 1⟩, ⟨2, 1⟩]

/-- An edge list the generator accepts, with repeated edges: `1-2` four times,
then `2-1` four times. -/
def repeatedEdges : List edge :=
  [⟨1, 2⟩, ⟨1, 2⟩, ⟨1, 2⟩, ⟨1, 2⟩, ⟨2, 1⟩, ⟨2, 1⟩, ⟨2, 1⟩, ⟨2, 1⟩]


/-! ## Theorems: the ring buffer -/

theorem writeBuffer_of_full (b : buffer) (entry : Int → edge) (edgeNumber i : Int)
    (h : b.numberofEntries = b.size) : writeBuffer b entry edgeNumber i = (false, b) := by
  simp [writeBuffer, bufferFull, h]

theorem writeBuffer_fst (b : buffer) (entry : Int → edge) (edgeNumber i : Int) :
    (writeBuffer b entry edgeNumber i).1 = !bufferFull b := by
  unfold writeBuffer
  split <;> simp_all

theorem readBuffer_of_empty (b : buffer) (edgeNumber : Int) (h : b.numberofEntries = 0) :
    readBuffer b edgeNumber = ⟨none, edgeNumber, b⟩ := by
  simp [readBuffer, bufferEmpty, h]

theorem bounds_initBuffer (b0 : buffer) : Bounds (initBuffer b0) := by
  simp [Bounds, initBuffer]

theorem bounds_writeBuffer (b : buffer) (entry : Int → edge) (edgeNumber i : Int)
    (h : Bounds b) : Bounds (writeBuffer b entry edgeNumber i).2 := by
  obtain ⟨h1, h2, h3, h4⟩ := h
  unfold writeBuffer
  split
  · exact ⟨h1, h2, h3, h4⟩
  · rename_i hf
    have hne : b.numberofEntries ≠ b.size := by simpa [bufferFull] using hf
    simp only [Bounds, UINT_MOD]
    refine ⟨?_, h2, h3, ?_⟩
    · have : b.numberofEntries + 1 < 2 ^ 32 := by omega
      rw [Nat.mod_eq_of_lt this]; omega
    · rw [h2]; exact Nat.mod_lt _ (by norm_num)

theorem bounds_readBuffer (b : buffer) (edgeNumber : Int)
    (h : Bounds b) : Bounds (readBuffer b edgeNumber).b := by
  obtain ⟨h1, h2, h3, h4⟩ := h
  unfold readBuffer
  split
  · exact ⟨h1, h2, h3, h4⟩
  · rename_i hf
    have hne : b.numberofEntries ≠ 0 := by simpa [bufferEmpty] using hf
    simp only [Bounds, UINT_MOD]
    refine ⟨?_, h2, ?_, h4⟩
    · omega
    · rw [h2]; exact Nat.mod_lt _ (by norm_num)

theorem bounds_of_reachable (b : buffer) (h : Reachable b) : Bounds b := by
  induction h with
  | init b0 => exact bounds_initBuffer b0
  | write b entry edgeNumber i _ ih => exact bounds_writeBuffer b entry edgeNumber i ih
  | read b edgeNumber _ ih => exact bounds_readBuffer b edgeNumber ih

/-- C3. Bounds invariant: in every buffer state reachable from `initialize` by
calls of `writeBuffer` and `readBuffer`, `numberofEntries ≤ size = 32`,
`head < 32` and `tail < 32`; a `writeBuffer` on a full buffer returns false and
a `readBuffer` on an empty buffer returns the null pointer, both leaving the
buffer as it is, so the entry counter neither exceeds the capacity nor wraps
below zero. -/
theorem C3_bounds_invariant (b : buffer) (h : Reachable b) :
    (0 ≤ b.numberofEntries ∧ b.numberofEntries ≤ b.size ∧ b.size = 32 ∧
      b.head < 32 ∧ b.tail < 32) ∧
    (b.numberofEntries = b.size → ∀ (entry : Int → edge) (edgeNumber i : Int),
      writeBuffer b entry edgeNumber i = (false, b)) ∧
    (b.numberofEntries = 0 → ∀ edgeNumber : Int,
      (readBuffer b edgeNumber).read = none ∧ (readBuffer b edgeNumber).b = b) := by
  obtain ⟨h1, h2, h3, h4⟩ := bounds_of_reachable b h
  refine ⟨⟨Nat.zero_le _, h1, h2, h3, h4⟩, ?_, ?_⟩
  · intro hf entry edgeNumber i
    exact writeBuffer_of_full b entry edgeNumber i hf
  · intro he edgeNumber
    rw [readBuffer_of_empty b edgeNumber he]
    exact ⟨rfl, rfl⟩

/-- C4. `writeBuffer` returns false if and only if the buffer is full on entry
(`numberofEntries == size`), and when it returns false the buffer is unchanged
in every field. -/
theorem C4_write_fails_iff_full (b : buffer) (entry : Int → edge) (edgeNumber i : Int) :
    ((writeBuffer b entry edgeNumber i).1 = false ↔ b.numberofEntries = b.size) ∧
    ((writeBuffer b entry edgeNumber i).1 = false →
      (writeBuffer b entry edgeNumber i).2 = b) := by
  by_cases hf : b.numberofEntries = b.size
  · simp [writeBuffer_of_full b entry edgeNumber i hf, hf]
  · have : bufferFull b = false := by simpa [bufferFull] using hf
    simp [writeBuffer, this, hf]

/-- C6. `readBuffer` returns the null pointer if and only if the buffer is
empty on entry (`numberofEntries == 0`), and when it does the buffer and the
caller's `*edgeNumber` are unchanged. -/
theorem C6_read_fails_iff_empty (b : buffer) (edgeNumber : Int) :
    ((readBuffer b edgeNumber).read = none ↔ b.numberofEntries = 0) ∧
    ((readBuffer b edgeNumber).read = none →
      (readBuffer b edgeNumber).b = b ∧ (readBuffer b edgeNumber).edgeNumber = edgeNumber) := by
  by_cases he : b.numberofEntries = 0
  · simp [readBuffer_of_empty b edgeNumber he, he]
  · have : bufferEmpty b = false := by simpa [bufferEmpty] using he
    simp [readBuffer, this, he]

/-- C7. Effect of a successful read: on a non-empty buffer with `head < size`
`readBuffer` returns the pointer to `entries[old head]`, whose record is the one
stored there on entry, sets `*edgeNumber = entryEdgeNumbers[old head]`,
`head = (old head + 1) mod size`, `numberofEntries = old numberofEntries - 1`,
and leaves `tail`, `size`, every record slot and every stored count unchanged. -/
theorem C7_read_effect (b : buffer) (edgeNumber : Int) (hr : b.inRange)
    (hne : b.numberofEntries ≠ 0) (hh : b.head < b.size) :
    (readBuffer b edgeNumber).read = some b.head ∧
    recordAt (readBuffer b edgeNumber).b b.head = b.entries b.head ∧
    (readBuffer b edgeNumber).edgeNumber = b.entryEdgeNumbers b.head ∧
    (readBuffer b edgeNumber).b.head = (b.head + 1) % b.size ∧
    (readBuffer b edgeNumber).b.numberofEntries = b.numberofEntries - 1 ∧
    (readBuffer b edgeNumber).b.numberofEntries + 1 = b.numberofEntries ∧
    (readBuffer b edgeNumber).b.tail = b.tail ∧
    (readBuffer b edgeNumber).b.size = b.size ∧
    (readBuffer b edgeNumber).b.entries = b.entries ∧
    (readBuffer b edgeNumber).b.entryEdgeNumbers = b.entryEdgeNumbers := by
  obtain ⟨_, _, hn, hs⟩ := hr
  have he : bufferEmpty b = false := by simpa [bufferEmpty] using hne
  simp only [UINT_MOD] at hn hs
  have h1 : (b.head + 1) % 2 ^ 32 = b.head + 1 := Nat.mod_eq_of_lt (by omega)
  have h2 : (b.numberofEntries + (2 ^ 32 - 1)) % 2 ^ 32 = b.numberofEntries - 1 := by omega
  simp only [readBuffer, he, recordAt, UINT_MOD, h1, h2]
  simp
  omega

theorem C3_bounds_invariant_witness :
    Reachable (writeBuffer (initBuffer zeroBuffer) (fun _ => ⟨1, 2⟩) 1 0).2 ∧
    (writeBuffer (initBuffer zeroBuffer) (fun _ => ⟨1, 2⟩) 1 0).2.numberofEntries ≤ 32 :=
  ⟨Reachable.write _ _ _ _ (Reachable.init zeroBuffer),
   by
    have h := C3_bounds_invariant _
      (Reachable.write (initBuffer zeroBuffer) (fun _ => ⟨1, 2⟩) 1 0 (Reachable.init zeroBuffer))
    omega⟩

theorem C7_read_effect_witness :
    sampleBuffer.inRange ∧ sampleBuffer.numberofEntries ≠ 0 ∧
    sampleBuffer.head < sampleBuffer.size ∧
    (readBuffer sampleBuffer 0).read = some 5 ∧ (readBuffer sampleBuffer 0).edgeNumber = 3 ∧
    (readBuffer sampleBuffer 0).b.head = 6 ∧ (readBuffer sampleBuffer 0).b.numberofEntries = 0 :=
  have h := C7_read_effect sampleBuffer 0 (by decide) (by decide) (by decide)
  ⟨by decide, by decide, by decide, h.1, h.2.2.1, h.2.2.2.1, h.2.2.2.2.1⟩


/-- The cell `c` of a row after the loop of `writeBuffer` has run from the
counter value `i` with enough passes to reach 8: the cells `i ≤ c < 8` are
overwritten, the others keep what they held. -/
theorem writeLoop_apply (entry : Int → edge) (edgeNumber : Int) (fuel : Nat) (i : Int)
    (row : Int → edge) (hfuel : (8 - i).toNat ≤ fuel) (c : Int) :
    writeLoop entry edgeNumber fuel i row c =
      if i ≤ c ∧ c < 8 then (if c < edgeNumber then entry c else sentinel) else row c := by
  induction fuel generalizing i row with
  | zero =>
      have : ¬ (i ≤ c ∧ c < 8) := by omega
      simp [writeLoop, this]
  | succ fuel ih =>
      unfold writeLoop
      by_cases hi : i < 8
      · rw [if_pos hi, ih (i + 1) _ (by omega)]
        by_cases hc : i + 1 ≤ c ∧ c < 8
        · have : i ≤ c ∧ c < 8 := by omega
          rw [if_pos hc, if_pos this]
        · rw [if_neg hc]
          by_cases hci : c = i
          · subst hci
            have : c ≤ c ∧ c < 8 := by omega
            rw [if_pos this]
            unfold writeCell
            split <;> simp [sentinel]
          · have : ¬ (i ≤ c ∧ c < 8) := by omega
            rw [if_neg this]
            unfold writeCell
            split <;> simp [Function.update, hci]
      · have : ¬ (i ≤ c ∧ c < 8) := by omega
        rw [if_neg hi, if_neg this]

/-- The records after a successful `writeBuffer` whose loop counter starts at
a value `0 ≤ i`, cell by cell. -/
theorem writeBuffer_entries (b : buffer) (entry : Int → edge) (edgeNumber i : Int)
    (_hi : 0 ≤ i) (hnf : b.numberofEntries ≠ b.size) (r : Nat) (c : Int) :
    (writeBuffer b entry edgeNumber i).2.entries r c =
      if r = b.tail ∧ i ≤ c ∧ c < 8 then (if c < edgeNumber then entry c else sentinel)
      else b.entries r c := by
  have hf : bufferFull b = false := by simpa [bufferFull] using hnf
  simp only [writeBuffer, hf]
  by_cases hr : r = b.tail
  · subst hr
    simp [writeLoop_apply entry edgeNumber _ i _ (le_refl _) c]
  · simp [Function.update, hr]

/-- The function `readBuffer` never stores to the records. -/
theorem readBuffer_entries (b : buffer) (edgeNumber : Int) :
    (readBuffer b edgeNumber).b.entries = b.entries := by
  unfold readBuffer
  split <;> rfl

/-- C5 at the failing input: on the empty initialised buffer (not full,
`tail = 0 < size`), `writeBuffer` with the record `(1,2)` and count 1, entered
with the uninitialised loop counter holding 3, returns true, stores the count,
advances `tail` and the entry counter, but leaves the cells 0, 1 and 2 of
`entries[old tail]` as they were: cell 0 is `(0,0)`, not `entry[0] = (1,2)`,
and cells 1 and 2 are `(0,0)`, not the sentinel. -/
theorem C5_write_effect_fails :
    (initBuffer zeroBuffer).numberofEntries ≠ (initBuffer zeroBuffer).size ∧
    (initBuffer zeroBuffer).tail < (initBuffer zeroBuffer).size ∧
    (writeBuffer (initBuffer zeroBuffer) oneEdge 1 3).1 = true ∧
    (writeBuffer (initBuffer zeroBuffer) oneEdge 1 3).2.entryEdgeNumbers 0 = 1 ∧
    (writeBuffer (initBuffer zeroBuffer) oneEdge 1 3).2.tail = 1 ∧
    (writeBuffer (initBuffer zeroBuffer) oneEdge 1 3).2.numberofEntries = 1 ∧
    (writeBuffer (initBuffer zeroBuffer) oneEdge 1 3).2.entries 0 0 = ⟨0, 0⟩ ∧
    (writeBuffer (initBuffer zeroBuffer) oneEdge 1 3).2.entries 0 0 ≠ oneEdge 0 ∧
    (writeBuffer (initBuffer zeroBuffer) oneEdge 1 3).2.entries 0 1 ≠ sentinel ∧
    (writeBuffer (initBuffer zeroBuffer) oneEdge 1 3).2.entries 0 2 ≠ sentinel ∧
    (writeBuffer (initBuffer zeroBuffer) oneEdge 1 3).2.entries 0 3 = sentinel := by
  decide

/-- The effect of a successful write when the loop counter of `writeBuffer`
happens to start at 0: on a buffer with room (`numberofEntries < size`) and
`tail < size` it returns true, `entries[old tail]` holds the first `edgeNumber`
edges of `entry` and sentinels in the other cells below 8,
`entryEdgeNumbers[old tail] = edgeNumber`, `tail` advances modulo `size`, the
entry counter goes up by one, and every other record, every other stored
count, `head` and `size` are unchanged. -/
theorem write_effect_of_zero (b : buffer) (entry : Int → edge) (edgeNumber : Int)
    (hr : b.inRange) (hroom : b.numberofEntries < b.size) (ht : b.tail < b.size) :
    (writeBuffer b entry edgeNumber 0).1 = true ∧
    (∀ c : Int, 0 ≤ c → c < edgeNumber → c < 8 →
      (writeBuffer b entry edgeNumber 0).2.entries b.tail c = entry c) ∧
    (∀ c : Int, 0 ≤ c → edgeNumber ≤ c → c < 8 →
      (writeBuffer b entry edgeNumber 0).2.entries b.tail c = sentinel) ∧
    (writeBuffer b entry edgeNumber 0).2.entryEdgeNumbers b.tail = edgeNumber ∧
    (writeBuffer b entry edgeNumber 0).2.tail = (b.tail + 1) % b.size ∧
    (writeBuffer b entry edgeNumber 0).2.numberofEntries = b.numberofEntries + 1 ∧
    (∀ (r : Nat) (c : Int), r ≠ b.tail →
      (writeBuffer b entry edgeNumber 0).2.entries r c = b.entries r c) ∧
    (∀ r : Nat, r ≠ b.tail →
      (writeBuffer b entry edgeNumber 0).2.entryEdgeNumbers r = b.entryEdgeNumbers r) ∧
    (writeBuffer b entry edgeNumber 0).2.head = b.head ∧
    (writeBuffer b entry edgeNumber 0).2.size = b.size := by
  obtain ⟨_, _, hn, hs⟩ := hr
  have hnf : b.numberofEntries ≠ b.size := by omega
  have hf : bufferFull b = false := by simpa [bufferFull] using hnf
  have hent := writeBuffer_entries b entry edgeNumber 0 (le_refl _) hnf
  simp only [UINT_MOD] at hn hs
  have h1 : (b.tail + 1) % 2 ^ 32 = b.tail + 1 := Nat.mod_eq_of_lt (by omega)
  have h2 : (b.numberofEntries + 1) % 2 ^ 32 = b.numberofEntries + 1 :=
    Nat.mod_eq_of_lt (by omega)
  refine ⟨?_, ?_, ?_, ?_, ?_, ?_, ?_, ?_, ?_, ?_⟩
  · simp [writeBuffer, hf]
  · intro c h0 hlt h8
    rw [hent, if_pos ⟨rfl, h0, h8⟩, if_pos hlt]
  · intro c h0 hge h8
    rw [hent, if_pos ⟨rfl, h0, h8⟩, if_neg (by omega)]
  · simp [writeBuffer, hf]
  · simp only [writeBuffer, hf, UINT_MOD]
    exact congrArg (fun x => x % b.size) h1
  · simp only [writeBuffer, hf, UINT_MOD]
    exact h2
  · intro r c hr
    rw [hent, if_neg (fun h => hr h.1)]
  · intro r hr
    simp [writeBuffer, hf, Function.update, hr]
  · simp [writeBuffer, hf]
  · simp [writeBuffer, hf]

/-- C2 at the failing input: on the empty initialised buffer, writing the
record `(1,2)` with count 1 while the uninitialised loop counter holds 8 and
reading it back succeeds with `*edgeNumber = 1`, but slot 0 of the returned
record is the old content `(0,0)` of the row, not `(1,2)`, and slot 1 is not
the sentinel. -/
theorem C2_round_trip_fails :
    (writeBuffer (initBuffer zeroBuffer) oneEdge 1 8).1 = true ∧
    (readBuffer (writeBuffer (initBuffer zeroBuffer) oneEdge 1 8).2 0).read = some 0 ∧
    (readBuffer (writeBuffer (initBuffer zeroBuffer) oneEdge 1 8).2 0).edgeNumber = 1 ∧
    recordAt (readBuffer (writeBuffer (initBuffer zeroBuffer) oneEdge 1 8).2 0).b 0 0 = ⟨0, 0⟩ ∧
    recordAt (readBuffer (writeBuffer (initBuffer zeroBuffer) oneEdge 1 8).2 0).b 0 0 ≠ oneEdge 0 ∧
    recordAt (readBuffer (writeBuffer (initBuffer zeroBuffer) oneEdge 1 8).2 0).b 0 1 ≠ sentinel := by
  decide

/-- Round trip when the loop counter of `writeBuffer` happens to start at 0:
on an empty initialised buffer, write then read succeeds, hands back the count
`K`, the first `K` edges of `entry` in order and sentinels in the slots `K..7`. -/
theorem round_trip_of_zero (b0 : buffer) (entry : Int → edge) (K : Int) :
    (writeBuffer (initBuffer b0) entry K 0).1 = true ∧
    (readBuffer (writeBuffer (initBuffer b0) entry K 0).2 0).read = some 0 ∧
    (readBuffer (writeBuffer (initBuffer b0) entry K 0).2 0).edgeNumber = K ∧
    (∀ c : Int, 0 ≤ c → c < K → c < 8 →
      recordAt (readBuffer (writeBuffer (initBuffer b0) entry K 0).2 0).b 0 c = entry c) ∧
    (∀ c : Int, K ≤ c → 0 ≤ c → c < 8 →
      recordAt (readBuffer (writeBuffer (initBuffer b0) entry K 0).2 0).b 0 c = sentinel) := by
  have hnf : (initBuffer b0).numberofEntries ≠ (initBuffer b0).size := by simp [initBuffer]
  have hent := writeBuffer_entries (initBuffer b0) entry K 0 (le_refl _) hnf
  have hw : (writeBuffer (initBuffer b0) entry K 0).1 = true := by
    simp [writeBuffer, bufferFull, initBuffer]
  have hne : bufferEmpty (writeBuffer (initBuffer b0) entry K 0).2 = false := by
    simp [writeBuffer, bufferFull, bufferEmpty, initBuffer, UINT_MOD]
  have hhead : (writeBuffer (initBuffer b0) entry K 0).2.head = 0 := by
    simp [writeBuffer, bufferFull, initBuffer]
  have hcnt : (writeBuffer (initBuffer b0) entry K 0).2.entryEdgeNumbers 0 = K := by
    simp [writeBuffer, bufferFull, initBuffer]
  refine ⟨hw, ?_, ?_, ?_, ?_⟩
  · simp [readBuffer, hne, hhead]
  · simp [readBuffer, hne, hhead, hcnt]
  · intro c h0 hK h8
    rw [recordAt, readBuffer_entries, hent 0 c]
    simp [initBuffer, h0, hK, h8]
  · intro c hK h0 h8
    rw [recordAt, readBuffer_entries, hent 0 c]
    have : ¬ c < K := by omega
    simp [initBuffer, h0, h8, this]


theorem writeBuffer_of_not_full (b : buffer) (entry : Int → edge) (edgeNumber i : Int)
    (h : b.numberofEntries ≠ b.size) :
    writeBuffer b entry edgeNumber i =
      (true,
        { b with
          entries := Function.update b.entries b.tail
            (writeLoop entry edgeNumber (8 - i).toNat i (b.entries b.tail))
          entryEdgeNumbers := Function.update b.entryEdgeNumbers b.tail edgeNumber
          numberofEntries := (b.numberofEntries + 1) % UINT_MOD
          tail := ((b.tail + 1) % UINT_MOD) % b.size }) := by
  have hf : bufferFull b = false := by simpa [bufferFull] using h
  simp [writeBuffer, hf]

theorem readBuffer_of_not_empty (b : buffer) (edgeNumber : Int) (h : b.numberofEntries ≠ 0) :
    readBuffer b edgeNumber =
      ⟨some b.head, b.entryEdgeNumbers b.head,
        { b with
          numberofEntries := (b.numberofEntries + (UINT_MOD - 1)) % UINT_MOD
          head := ((b.head + 1) % UINT_MOD) % b.size }⟩ := by
  have he : bufferEmpty b = false := by simpa [bufferEmpty] using h
  simp [readBuffer, he]

theorem rep_initBuffer (b0 : buffer) : Rep (initBuffer b0) [] := by
  refine ⟨rfl, by simp [initBuffer], rfl, by simp, by simp [initBuffer], ?_⟩
  intro k w h
  simp at h

theorem rep_write (b : buffer) (q : List Written) (entry : Int → edge) (edgeNumber : Int)
    (h : Rep b q) (hnf : b.numberofEntries ≠ b.size) :
    Rep (writeBuffer b entry edgeNumber 0).2 (q ++ [⟨entry, edgeNumber⟩]) := by
  obtain ⟨hs, hh, hn, hq, ht, hrows⟩ := h
  have hf : bufferFull b = false := by simpa [bufferFull] using hnf
  have hent := writeBuffer_entries b entry edgeNumber 0 (le_refl _) hnf
  have hlt : q.length < 32 := by omega
  have e1 : (writeBuffer b entry edgeNumber 0).2.size = 32 := by simp [writeBuffer, hf, hs]
  have e2 : (writeBuffer b entry edgeNumber 0).2.head = b.head := by simp [writeBuffer, hf]
  have e3 : (writeBuffer b entry edgeNumber 0).2.numberofEntries = q.length + 1 := by
    rw [writeBuffer_of_not_full b entry edgeNumber 0 hnf]
    simp only [UINT_MOD, hn]
    exact Nat.mod_eq_of_lt (by omega)
  have e4 : (writeBuffer b entry edgeNumber 0).2.tail = (b.head + (q.length + 1)) % 32 := by
    rw [writeBuffer_of_not_full b entry edgeNumber 0 hnf]
    simp only [UINT_MOD, hs, ht]
    omega
  have e5 : ∀ r, (writeBuffer b entry edgeNumber 0).2.entryEdgeNumbers r =
      if r = b.tail then edgeNumber else b.entryEdgeNumbers r := by
    intro r
    simp [writeBuffer, hf, Function.update]
  refine ⟨e1, by rw [e2]; exact hh, by simp [e3], by simp; omega, by simp [e4, e2], ?_⟩
  intro k w hk
  rw [e2]
  by_cases hkq : k < q.length
  · rw [List.get?_eq_getElem?, List.getElem?_append_left hkq, ← List.get?_eq_getElem?] at hk
    obtain ⟨hc, hr⟩ := hrows k w hk
    have hne : (b.head + k) % 32 ≠ b.tail := by rw [ht]; omega
    refine ⟨by rw [e5, if_neg hne]; exact hc, ?_⟩
    intro c h0 h1 h8
    rw [hent, if_neg (by tauto)]
    exact hr c h0 h1 h8
  · have hlen : k < (q ++ [(⟨entry, edgeNumber⟩ : Written)]).length := by
      rcases List.get?_eq_some.mp hk with ⟨hl, _⟩
      exact hl
    have hkeq : k = q.length := by simp at hlen; omega
    subst hkeq
    have hw : w = ⟨entry, edgeNumber⟩ := by
      rw [List.get?_eq_getElem?, List.getElem?_append_right (le_refl _)] at hk
      simpa using hk.symm
    subst hw
    have heq : (b.head + q.length) % 32 = b.tail := ht.symm
    refine ⟨by rw [e5, if_pos heq], ?_⟩
    intro c h0 h1 h8
    rw [hent, if_pos ⟨heq, h0, h8⟩, if_pos h1]

theorem rep_read (b : buffer) (w : Written) (q : List Written) (edgeNumber : Int)
    (h : Rep b (w :: q)) :
    (readBuffer b edgeNumber).read = some b.head ∧
    agrees w ⟨recordAt (readBuffer b edgeNumber).b b.head, (readBuffer b edgeNumber).edgeNumber⟩ ∧
    Rep (readBuffer b edgeNumber).b q := by
  obtain ⟨hs, hh, hn, hq, ht, hrows⟩ := h
  simp only [List.length_cons] at hn hq ht
  have he : bufferEmpty b = false := by simp [bufferEmpty, hn]
  have h0 := hrows 0 w rfl
  rw [Nat.add_zero, Nat.mod_eq_of_lt hh] at h0
  have hne : b.numberofEntries ≠ 0 := by omega
  have e1 : (readBuffer b edgeNumber).b.head = (b.head + 1) % 32 := by
    rw [readBuffer_of_not_empty b edgeNumber hne]
    simp only [UINT_MOD, hs]
    omega
  have e2 : (readBuffer b edgeNumber).b.numberofEntries = q.length := by
    rw [readBuffer_of_not_empty b edgeNumber hne]
    simp only [UINT_MOD, hn]
    omega
  have e3 : (readBuffer b edgeNumber).b.tail = b.tail := by simp [readBuffer, he]
  have e4 : (readBuffer b edgeNumber).b.entryEdgeNumbers = b.entryEdgeNumbers := by
    simp [readBuffer, he]
  have e5 : (readBuffer b edgeNumber).edgeNumber = b.entryEdgeNumbers b.head := by
    simp [readBuffer, he]
  refine ⟨by simp [readBuffer, he], ⟨?_, ?_⟩, ?_⟩
  · exact e5.trans h0.1
  · intro c hc0 hc1 hc8
    show recordAt (readBuffer b edgeNumber).b b.head c = w.entry c
    rw [recordAt, readBuffer_entries]
    exact h0.2 c hc0 hc1 hc8
  · refine ⟨by simp [readBuffer, he, hs], by rw [e1]; omega, e2, by omega, by rw [e3, e1, ht]; omega, ?_⟩
    intro k w1 hk
    have := hrows (k + 1) w1 (by simpa using hk)
    have hidx : ((readBuffer b edgeNumber).b.head + k) % 32 = (b.head + (k + 1)) % 32 := by
      rw [e1]; omega
    rw [hidx]
    exact ⟨by rw [e4]; exact this.1, by rw [readBuffer_entries]; exact this.2⟩

/-- The invariant behind the FIFO property: run from a buffer representing the
queue `q`, the successful reads agree, one by one and in order, with a prefix
of `q` followed by the successful writes. -/
theorem runCalls_rep (cs : List Call) : ∀ (b : buffer) (q : List Written), Rep b q →
    startAtZero cs →
    ∃ (m q1 : List Written), q ++ (runCalls b cs).writes = m ++ q1 ∧
      List.Forall₂ agrees m (runCalls b cs).reads ∧ Rep (runCalls b cs).b q1 := by
  induction cs with
  | nil =>
      intro b q h _
      exact ⟨[], q, by simp [runCalls], by simp [runCalls], h⟩
  | cons call cs ih =>
      intro b q h hz
      cases call with
      | write entry edgeNumber i =>
          obtain ⟨hi, hz⟩ := hz
          subst hi
          by_cases hnf : b.numberofEntries = b.size
          · have hw := writeBuffer_of_full b entry edgeNumber 0 hnf
            obtain ⟨m, q1, h1, h2, h3⟩ := ih b q h hz
            refine ⟨m, q1, ?_, ?_, ?_⟩ <;> simp only [runCalls, hw] <;> simpa
          · have hf : bufferFull b = false := by simpa [bufferFull] using hnf
            have hw : (writeBuffer b entry edgeNumber 0).1 = true := by
              rw [writeBuffer_fst, hf]; rfl
            obtain ⟨m, q1, h1, h2, h3⟩ := ih _ _ (rep_write b q entry edgeNumber h hnf) hz
            refine ⟨m, q1, ?_, ?_, ?_⟩
            · simp only [runCalls, hw, if_true]
              simpa using h1
            · simpa only [runCalls, hw, if_true] using h2
            · simpa only [runCalls, hw, if_true] using h3
      | read edgeNumber =>
          have hz : startAtZero cs := hz
          cases q with
          | nil =>
              have hn : b.numberofEntries = 0 := h.2.2.1
              have hr := readBuffer_of_empty b edgeNumber hn
              obtain ⟨m, q1, h1, h2, h3⟩ := ih b [] h hz
              refine ⟨m, q1, ?_, ?_, ?_⟩ <;> simp only [runCalls, hr] <;> simpa
          | cons w q =>
              obtain ⟨hp, hag, hrep⟩ := rep_read b w q edgeNumber h
              obtain ⟨m, q1, h1, h2, h3⟩ := ih _ _ hrep hz
              refine ⟨w :: m, q1, ?_, ?_, ?_⟩
              · simp only [runCalls, hp]
                simpa using h1
              · simp only [runCalls, hp]
                exact List.Forall₂.cons hag h2
              · simpa only [runCalls, hp] using h3

/-- FIFO when every `writeBuffer` call is entered with its loop counter at 0:
after `initialize`, for every sequence of calls, the `k`-th successful read
hands back the count and the first `edgeNumber` edges of the `k`-th successful
write. -/
theorem fifo_of_startAtZero (b0 : buffer) (cs : List Call) (hz : startAtZero cs) :
    Fifo (runCalls (initBuffer b0) cs) := by
  obtain ⟨m, q1, h1, h2, _⟩ := runCalls_rep cs (initBuffer b0) [] (rep_initBuffer b0) hz
  rw [List.nil_append] at h1
  unfold Fifo
  rw [h1, ← h2.length_eq, List.take_left']
  · exact h2
  · rfl

/-- C1 at the failing input: on the empty initialised buffer, two writes
(records `(1,2)` and `(3,4)`, each of count 1) entered with the uninitialised
loop counter holding 1, followed by two reads. Both writes and both reads
succeed and the counts come back in order, but the first edge of each returned
record is the old content `(0,0)` of its row: the trace is not FIFO. -/
theorem C1_fifo_fails :
    (runCalls (initBuffer zeroBuffer)
      [Call.write oneEdge 1 1, Call.write otherEdge 1 1, Call.read 0, Call.read 0]).writes.length = 2 ∧
    ((runCalls (initBuffer zeroBuffer)
      [Call.write oneEdge 1 1, Call.write otherEdge 1 1, Call.read 0, Call.read 0]).reads.map
        (fun r => (r.edgeNumber, r.record 0, r.record 1))) =
      [(1, ⟨0, 0⟩, ⟨-1, -1⟩), (1, ⟨0, 0⟩, ⟨-1, -1⟩)] ∧
    ¬ Fifo (runCalls (initBuffer zeroBuffer)
      [Call.write oneEdge 1 1, Call.write otherEdge 1 1, Call.read 0, Call.read 0]) := by
  refine ⟨by decide, by decide, ?_⟩
  intro h
  have key := (List.forall₂_iff_get.mp h).2 0 (by decide) (by decide)
  have hcell := key.2 0 (by decide) (by decide) (by decide)
  revert hcell
  decide


/-! ## Theorems: the shuffle -/

theorem swapCells_length (list : List Int) (i j : Nat) :
    (swapCells list i j).length = list.length := by
  simp [swapCells]

/-- Exchanging two cells inside the array leaves a permutation of the array. -/
theorem swapCells_perm (list : List Int) (i j : Nat) (hi : i < list.length)
    (hj : j < list.length) : (swapCells list i j).Perm list := by
  rw [List.perm_iff_count]
  intro b
  have hgi : list.getD i 0 = list[i] := by simp [List.getD, hi]
  have hgj : list.getD j 0 = list[j] := by simp [List.getD, hj]
  have hj1 : j < (list.set j list[i]).length := by simpa using hj
  have hi1 : i < (list.set j list[i]).length := by simpa using hi
  have hcell : (list.set j list[i])[i] = list[i] := by
    rw [List.getElem_set]
    split <;> rfl
  have hle : (if list[j] == b then 1 else 0) ≤ list.count b := by
    have := List.boole_getElem_le_countP (fun x => x == b) list j hj
    simpa [List.count_eq_countP] using this
  simp only [swapCells, hgi, hgj]
  rw [List.count_set _ _ _ _ hi1, hcell, List.count_set _ _ _ _ hj]
  generalize (if (list[j] == b) = true then 1 else 0) = x at hle ⊢
  generalize (if (list[i] == b) = true then 1 else 0) = y
  omega

theorem fisherYatesLoop_perm (rand : Nat → Nat) (i : Nat) :
    ∀ (k : Nat) (list : List Int), i < list.length →
      (fisherYatesLoop rand i k list).Perm list := by
  induction i with
  | zero =>
      intro k list _
      exact List.Perm.refl _
  | succ i ih =>
      intro k list h
      unfold fisherYatesLoop
      have hj : rand k % (i + 1 + 1) < list.length :=
        lt_of_lt_of_le (Nat.mod_lt _ (by omega)) (by omega)
      have hs := swapCells_perm list (i + 1) (rand k % (i + 1 + 1)) h hj
      exact (ih (k + 1) _ (by rw [swapCells_length]; omega)).trans hs

/-- The shuffle leaves a permutation of the first `n` cells, here the whole array. -/
theorem fisherYates_perm (list : List Int) (rand : Nat → Nat) :
    (fisherYates list list.length rand).Perm list := by
  unfold fisherYates
  by_cases h0 : list.length = 0
  · have : ((list.length : Int) - 1).toNat = 0 := by omega
    rw [this]
    exact List.Perm.refl _
  · exact fisherYatesLoop_perm rand _ 0 list (by omega)

/-- C8. For every array of `n` integers and every sequence of values returned
by `rand()`, `fisherYates` leaves a permutation of its input in the array: the
same length, every value as often as in the input, and no repeated value when
the input has none. -/
theorem C8_fisherYates_perm (list : List Int) (n : Int) (rand : Nat → Nat)
    (hn : n = list.length) :
    (fisherYates list n rand).Perm list ∧
    (fisherYates list n rand).length = list.length ∧
    (∀ v : Int, (fisherYates list n rand).count v = list.count v) ∧
    (∀ v : Int, v ∈ fisherYates list n rand ↔ v ∈ list) ∧
    (list.Nodup → (fisherYates list n rand).Nodup) := by
  subst hn
  have hp := fisherYates_perm list rand
  exact ⟨hp, hp.length_eq, fun v => hp.count_eq v, fun v => hp.mem_iff, fun h => hp.nodup_iff.mpr h⟩

theorem C8_fisherYates_perm_witness :
    ((4 : Int) = ([1, 2, 3, 4] : List Int).length) ∧
    (fisherYates [1, 2, 3, 4] 4 (fun k => k + 1)).Perm [1, 2, 3, 4] ∧
    fisherYates [1, 2, 3, 4] 4 (fun k => k + 1) = [1, 4, 3, 2] :=
  ⟨by decide, (C8_fisherYates_perm [1, 2, 3, 4] 4 (fun k => k + 1) (by decide)).1, by decide⟩


/-! ## Theorems: candidate collection -/

theorem foldl_eq_append_flatMap {α β : Type} (g : List β → α → List β) (f : α → List β)
    (h : ∀ acc x, g acc x = acc ++ f x) :
    ∀ (l : List α) (acc : List β), l.foldl g acc = acc ++ l.flatMap f := by
  intro l
  induction l with
  | nil => intro acc; simp
  | cons x l ih =>
      intro acc
      rw [List.foldl_cons, ih, h, List.flatMap_cons, List.append_assoc]

theorem range_flatMap_getD {α β : Type} (d : α) (f : α → List β) (l : List α) :
    (List.range l.length).flatMap (fun k => f (l.getD k d)) = l.flatMap f := by
  induction l with
  | nil => simp
  | cons a l ih =>
      rw [List.length_cons, List.range_succ_eq_map, List.flatMap_cons, List.flatMap_map,
        List.flatMap_cons]
      simp only [List.getD_cons_zero, Nat.succ_eq_add_one, List.getD_cons_succ]
      rw [ih]

theorem flatMap_ite_eq_filter {α : Type} (p : α → Prop) [DecidablePred p] (l : List α) :
    l.flatMap (fun x => if p x then [x] else []) = l.filter (fun x => decide (p x)) := by
  induction l with
  | nil => simp
  | cons a l ih =>
      rw [List.flatMap_cons, ih, List.filter_cons]
      by_cases h : p a <;> simp [h]

theorem collectStep_eq (vertices : List Int) (edges : List edge) (i j : Nat) (acc : List edge)
    (k : Nat) :
    collectStep vertices edges i j acc k =
      acc ++ (fun e : edge =>
        if e.U = vertices.getD j 0 ∧ e.V = vertices.getD i 0 then [e] else [])
        (edges.getD k ⟨0, 0⟩) := by
  unfold collectStep
  by_cases h : (edges.getD k ⟨0, 0⟩).U = vertices.getD j 0 ∧
      (edges.getD k ⟨0, 0⟩).V = vertices.getD i 0
  · simp only [if_pos h]
    rw [← h.1, ← h.2]
  · simp only [if_neg h, List.append_nil]

/-- The three loops of `randomizer` as a list comprehension: for `i` and then
`j > i` in loop order, the input edges from `vertices[j]` to `vertices[i]`. -/
theorem collect_eq (vertices : List Int) (edges : List edge) :
    collect vertices vertices.length edges edges.length =
      (List.range (vertices.length - 1)).flatMap (fun i =>
        (List.range' (i + 1) (vertices.length - (i + 1))).flatMap (fun j =>
          edges.filter (fun e => decide (e.U = vertices.getD j 0 ∧ e.V = vertices.getD i 0)))) := by
  unfold collect
  have h1 : ((vertices.length : Int) - 1).toNat = vertices.length - 1 := by omega
  have h2 : ((vertices.length : Int)).toNat = vertices.length := by omega
  have h3 : ((edges.length : Int)).toNat = edges.length := by omega
  rw [h1, h2, h3]
  rw [foldl_eq_append_flatMap _ (fun i =>
        (List.range' (i + 1) (vertices.length - (i + 1))).flatMap (fun j =>
          edges.filter (fun e => decide (e.U = vertices.getD j 0 ∧ e.V = vertices.getD i 0))))]
  · simp
  · intro acc i
    apply foldl_eq_append_flatMap
    intro acc j
    rw [foldl_eq_append_flatMap _ _ (collectStep_eq vertices edges i j),
      range_flatMap_getD (⟨0, 0⟩ : edge)
        (fun e : edge => if e.U = vertices.getD j 0 ∧ e.V = vertices.getD i 0 then [e] else [])
        edges,
      flatMap_ite_eq_filter]

theorem count_filter_ite {α : Type} [DecidableEq α] (p : α → Prop) [DecidablePred p]
    (l : List α) (a : α) :
    (l.filter (fun x => decide (p x))).count a = if p a then l.count a else 0 := by
  by_cases h : p a
  · rw [if_pos h, List.count_filter (by simpa using h)]
  · rw [if_neg h]
    apply List.count_eq_zero_of_not_mem
    intro hm
    exact h (by simpa using (List.mem_filter.mp hm).2)

theorem sum_map_ite (l : List Nat) (hl : l.Nodup) (a : Nat) (f : Nat → Nat) :
    (l.map (fun x => if x = a then f x else 0)).sum = if a ∈ l then f a else 0 := by
  induction l with
  | nil => simp
  | cons x l ih =>
      rw [List.nodup_cons] at hl
      rw [List.map_cons, List.sum_cons, ih hl.2]
      by_cases hx : x = a
      · subst hx
        simp [hl.1]
      · have : ¬ a = x := fun h => hx h.symm
        simp [hx, this]

theorem getD_eq_iff_indexOf (vertices : List Int) (hn : vertices.Nodup) (v : Int) (j : Nat)
    (hj : j < vertices.length) : v = vertices.getD j 0 ↔ j = vertices.indexOf v := by
  have hg : vertices.getD j 0 = vertices[j] := by simp [List.getD, hj]
  rw [hg]
  constructor
  · intro h
    rw [h, List.indexOf_getElem hn j hj]
  · intro h
    subst h
    exact (List.getElem_indexOf hj).symm

/-- How often an edge is collected: as often as it occurs in the input when it
points backward in the order, never otherwise. -/
theorem count_collect (vertices : List Int) (edges : List edge) (hn : vertices.Nodup) (e : edge) :
    (collect vertices vertices.length edges edges.length).count e =
      if backward vertices e then edges.count e else 0 := by
  rw [collect_eq, List.count_flatMap]
  have inner : ∀ i ∈ List.range (vertices.length - 1),
      (List.count e ∘ fun i =>
        (List.range' (i + 1) (vertices.length - (i + 1))).flatMap (fun j =>
          edges.filter (fun e => decide (e.U = vertices.getD j 0 ∧ e.V = vertices.getD i 0)))) i =
      (fun i => if i = vertices.indexOf e.V then
          (fun i => if i + 1 ≤ vertices.indexOf e.U ∧ vertices.indexOf e.U < vertices.length
            then edges.count e else 0) i
        else 0) i := by
    intro i hi
    rw [List.mem_range] at hi
    simp only [Function.comp]
    rw [List.count_flatMap]
    have step : ∀ j ∈ List.range' (i + 1) (vertices.length - (i + 1)),
        (List.count e ∘ fun j =>
          edges.filter (fun e => decide (e.U = vertices.getD j 0 ∧ e.V = vertices.getD i 0))) j =
        (fun j => if j = vertices.indexOf e.U then
            (fun _ => if i = vertices.indexOf e.V then edges.count e else 0) j
          else 0) j := by
      intro j hj
      rw [List.mem_range'_1] at hj
      simp only [Function.comp]
      rw [count_filter_ite (fun e : edge => e.U = vertices.getD j 0 ∧ e.V = vertices.getD i 0)]
      simp only [getD_eq_iff_indexOf vertices hn e.U j (by omega),
        getD_eq_iff_indexOf vertices hn e.V i (by omega)]
      by_cases h1 : j = vertices.indexOf e.U <;> by_cases h2 : i = vertices.indexOf e.V <;>
        simp [h1, h2]
    rw [List.map_congr_left step, sum_map_ite _ (List.nodup_range' _ _)]
    simp only [List.mem_range'_1]
    by_cases h2 : i = vertices.indexOf e.V
    · by_cases h1 : i + 1 ≤ vertices.indexOf e.U ∧ vertices.indexOf e.U < vertices.length
      · have : i + 1 ≤ vertices.indexOf e.U ∧
            vertices.indexOf e.U < i + 1 + (vertices.length - (i + 1)) := by omega
        rw [if_pos this, if_pos h2, if_pos h2, if_pos h1]
      · have : ¬ (i + 1 ≤ vertices.indexOf e.U ∧
            vertices.indexOf e.U < i + 1 + (vertices.length - (i + 1))) := by omega
        rw [if_neg this, if_pos h2, if_neg h1]
    · simp [h2]
  rw [List.map_congr_left inner, sum_map_ite _ (List.nodup_range _)]
  simp only [List.mem_range, backward]
  by_cases hb : vertices.indexOf e.V < vertices.indexOf e.U ∧
      vertices.indexOf e.U < vertices.length
  · have h1 : vertices.indexOf e.V < vertices.length - 1 := by omega
    have h2 : vertices.indexOf e.V + 1 ≤ vertices.indexOf e.U ∧
        vertices.indexOf e.U < vertices.length := by omega
    rw [if_pos h1, if_pos h2, if_pos hb]
  · rw [if_neg hb]
    split
    · rw [if_neg (by omega)]
    · rfl

/-- The edges collected over a duplicate-free order are, up to their order,
the input edges that point backward. -/
theorem collect_perm (vertices : List Int) (edges : List edge) (hn : vertices.Nodup) :
    (collect vertices vertices.length edges edges.length).Perm
      (edges.filter (fun e => decide (backward vertices e))) := by
  rw [List.perm_iff_count]
  intro e
  rw [count_collect vertices edges hn e, count_filter_ite (backward vertices)]


theorem mem_collect (vertices : List Int) (edges : List edge) (hn : vertices.Nodup) (e : edge) :
    e ∈ collect vertices vertices.length edges edges.length ↔
      e ∈ edges ∧ backward vertices e := by
  rw [(collect_perm vertices edges hn).mem_iff, List.mem_filter]
  simp

/-- In a duplicate-free order, `backward` says that `e.V` stands at some
position `i` and `e.U` at some later position `j`. -/
theorem backward_iff (vertices : List Int) (hn : vertices.Nodup) (e : edge) :
    backward vertices e ↔
      ∃ i j : Nat, i < j ∧ j < vertices.length ∧
        vertices.getD i 0 = e.V ∧ vertices.getD j 0 = e.U := by
  constructor
  · rintro ⟨h1, h2⟩
    refine ⟨vertices.indexOf e.V, vertices.indexOf e.U, h1, h2, ?_, ?_⟩
    · exact ((getD_eq_iff_indexOf vertices hn e.V _ (by omega)).mpr rfl).symm
    · exact ((getD_eq_iff_indexOf vertices hn e.U _ h2).mpr rfl).symm
  · rintro ⟨i, j, hij, hj, hi1, hj1⟩
    have e1 := (getD_eq_iff_indexOf vertices hn e.V i (by omega)).mp hi1.symm
    have e2 := (getD_eq_iff_indexOf vertices hn e.U j hj).mp hj1.symm
    unfold backward
    omega

/-! ## Theorems: the candidate is a feedback arc set -/

/-- A graph whose arcs all go up along a rank of the vertices has no directed cycle. -/
theorem acyclic_of_rank (g : List edge) (rank : Int → Nat)
    (h : ∀ u v : Int, arc g u v → rank u < rank v) : acyclic g := by
  have key : ∀ u v : Int, Relation.TransGen (arc g) u v → rank u < rank v := by
    intro u v huv
    induction huv with
    | single hab => exact h _ _ hab
    | tail _ hbc ih => exact lt_trans ih (h _ _ hbc)
  intro v hv
  exact lt_irrefl _ (key v v hv)

/-- Removing the edges collected over a duplicate-free order that holds both
vertices of every edge leaves, when no edge is a self-loop, an acyclic graph. -/
theorem acyclic_removeEdges_collect (order : List Int) (edges : List edge) (hn : order.Nodup)
    (hv : ∀ e ∈ edges, e.U ∈ order ∧ e.V ∈ order) (hl : ∀ e ∈ edges, e.U ≠ e.V) :
    acyclic (removeEdges edges (collect order order.length edges edges.length)) := by
  apply acyclic_of_rank _ (fun v => order.indexOf v)
  intro u v huv
  unfold arc removeEdges at huv
  rw [List.mem_filter] at huv
  obtain ⟨he, hnot⟩ := huv
  have hnc : (⟨u, v⟩ : edge) ∉ collect order order.length edges edges.length := by
    simpa using hnot
  rw [mem_collect order edges hn] at hnc
  have hb : ¬ backward order ⟨u, v⟩ := fun hb => hnc ⟨he, hb⟩
  obtain ⟨hu, hvm⟩ := hv _ he
  have hne : u ≠ v := hl _ he
  have hu1 : order.indexOf u < order.length := List.indexOf_lt_length.mpr hu
  have hne1 : order.indexOf u ≠ order.indexOf v := fun h =>
    hne ((List.indexOf_inj hu hvm).mp h)
  unfold backward at hb
  simp only at hb hu hvm
  show order.indexOf u < order.indexOf v
  omega


/-! ## Theorems: empty candidates and the 3-cycle -/

theorem removeEdges_nil (edges : List edge) : removeEdges edges [] = edges := by
  simp [removeEdges]

/-- C11, as stated, fails: for the accepted edge list `1-1 1-2 2-3`, whose
distinct vertices are `[1,2,3]`, `randomizer` returns zero edges when the draws
2, 1 leave the order `[1,2,3]`, although the vertex 1 reaches itself along the
self-loop `1-1`. -/
theorem C11_counterexample :
    (duplicateRemover (vertexArray loopEdges) 6).uniqueList = [1, 2, 3] ∧
    (randomizer [1, 2, 3] 3 loopEdges 3 (fun k => 2 - k)).vertices = [1, 2, 3] ∧
    (randomizer [1, 2, 3] 3 loopEdges 3 (fun k => 2 - k)).solution = [] ∧
    (randomizer [1, 2, 3] 3 loopEdges 3 (fun k => 2 - k)).solutionCount = 0 ∧
    ¬ acyclic loopEdges := by
  refine ⟨by decide, by decide, by decide, by decide, ?_⟩
  intro h
  have harc : arc loopEdges 1 1 := by
    show (⟨1, 1⟩ : edge) ∈ loopEdges
    decide
  exact h 1 (Relation.TransGen.single harc)

/-- C11, amended. For every edge list without self-loop edges (repeated edges
allowed) and every duplicate-free order holding both vertices of every edge, if
`randomizer` returns zero edges then the input graph has no directed cycle. -/
theorem C11_empty_candidate_acyclic (vertices : List Int) (edges : List edge)
    (rand : Nat → Nat) (hn : vertices.Nodup)
    (hv : ∀ e ∈ edges, e.U ∈ vertices ∧ e.V ∈ vertices) (hl : ∀ e ∈ edges, e.U ≠ e.V)
    (h0 : (randomizer vertices vertices.length edges edges.length rand).solutionCount = 0) :
    acyclic edges := by
  have hp := fisherYates_perm vertices rand
  have hn1 : (fisherYates vertices vertices.length rand).Nodup := hp.nodup_iff.mpr hn
  have hlen : ((fisherYates vertices vertices.length rand).length : Int) = vertices.length := by
    rw [hp.length_eq]
  have h1 := acyclic_removeEdges_collect (fisherYates vertices vertices.length rand) edges hn1
    (fun e he => ⟨hp.mem_iff.mpr (hv e he).1, hp.mem_iff.mpr (hv e he).2⟩) hl
  rw [hlen] at h1
  have hnil : collect (fisherYates vertices vertices.length rand) vertices.length edges
      edges.length = [] := by
    have : ((collect (fisherYates vertices vertices.length rand) vertices.length edges
        edges.length).length : Int) = 0 := h0
    exact List.length_eq_zero.mp (by omega)
  rw [hnil, removeEdges_nil] at h1
  exact h1

theorem C11_empty_candidate_acyclic_witness :
    ([1, 2, 3] : List Int).Nodup ∧
    (randomizer [1, 2, 3] 3 [⟨1, 2⟩, ⟨2, 3⟩, ⟨1, 3⟩] 3 (fun k => 2 - k)).solutionCount = 0 ∧
    acyclic [⟨1, 2⟩, ⟨2, 3⟩, ⟨1, 3⟩] :=
  ⟨by decide, by decide,
    C11_empty_candidate_acyclic [1, 2, 3] [⟨1, 2⟩, ⟨2, 3⟩, ⟨1, 3⟩] (fun k => 2 - k)
      (by decide) (by decide) (by decide) (by decide)⟩

/-- Over any order of the vertices 1, 2, 3 the collecting loops find at least
one edge of the 3-cycle. -/
theorem triangle_collect_pos (order : List Int) (hp : order.Perm [1, 2, 3]) :
    1 ≤ (collect order 3 triangle 3).length := by
  have hn : order.Nodup := hp.nodup_iff.mpr (by decide)
  have hlen : order.length = 3 := hp.length_eq
  have hc := mem_collect order triangle hn
  have e3 : ((order.length : Nat) : Int) = 3 := by rw [hlen]; rfl
  have t3 : ((triangle.length : Nat) : Int) = 3 := rfl
  rw [e3, t3] at hc
  by_contra hlt
  have hnil : collect order 3 triangle 3 = [] := List.length_eq_zero.mp (by omega)
  have m1 : (1 : Int) ∈ order := hp.mem_iff.mpr (by decide)
  have m2 : (2 : Int) ∈ order := hp.mem_iff.mpr (by decide)
  have m3 : (3 : Int) ∈ order := hp.mem_iff.mpr (by decide)
  have i1 := List.indexOf_lt_length.mpr m1
  have i2 := List.indexOf_lt_length.mpr m2
  have i3 := List.indexOf_lt_length.mpr m3
  have b1 : ¬ backward order ⟨1, 2⟩ := fun hb => by
    have := (hc ⟨1, 2⟩).mpr ⟨by decide, hb⟩
    rw [hnil] at this
    exact List.not_mem_nil _ this
  have b2 : ¬ backward order ⟨2, 3⟩ := fun hb => by
    have := (hc ⟨2, 3⟩).mpr ⟨by decide, hb⟩
    rw [hnil] at this
    exact List.not_mem_nil _ this
  have b3 : ¬ backward order ⟨3, 1⟩ := fun hb => by
    have := (hc ⟨3, 1⟩).mpr ⟨by decide, hb⟩
    rw [hnil] at this
    exact List.not_mem_nil _ this
  unfold backward at b1 b2 b3
  simp only at b1 b2 b3
  have n12 : order.indexOf (1 : Int) ≠ order.indexOf (2 : Int) := fun h =>
    absurd ((List.indexOf_inj m1 m2).mp h) (by decide)
  have n23 : order.indexOf (2 : Int) ≠ order.indexOf (3 : Int) := fun h =>
    absurd ((List.indexOf_inj m2 m3).mp h) (by decide)
  have n31 : order.indexOf (3 : Int) ≠ order.indexOf (1 : Int) := fun h =>
    absurd ((List.indexOf_inj m3 m1).mp h) (by decide)
  omega

/-- C12. The 3-cycle scenario: for the vertices 1, 2, 3 in any order and the
edges `[(1,2),(2,3),(3,1)]`, the candidate of `randomizer` has at least one edge
whatever the draws, and so has the one collected over any order of the three
vertices; for the draws all 0 on `[1,2,3]` it has exactly one edge, so the
least candidate size is exactly 1. -/
theorem C12_triangle_minimum (vertices : List Int) (rand : Nat → Nat)
    (hp : vertices.Perm [1, 2, 3]) :
    1 ≤ (randomizer vertices 3 triangle 3 rand).solutionCount ∧
    1 ≤ (collect vertices 3 triangle 3).length ∧
    (randomizer [1, 2, 3] 3 triangle 3 (fun _ => 0)).solutionCount = 1 ∧
    (randomizer [1, 2, 3] 3 triangle 3 (fun _ => 0)).solution = [⟨1, 2⟩] := by
  refine ⟨?_, triangle_collect_pos vertices hp, by decide, by decide⟩
  have hlen : vertices.length = 3 := hp.length_eq
  have hs : (fisherYates vertices 3 rand).Perm [1, 2, 3] := by
    have := fisherYates_perm vertices rand
    rw [hlen] at this
    exact this.trans hp
  have := triangle_collect_pos (fisherYates vertices 3 rand) hs
  show (1 : Int) ≤ ((collect (fisherYates vertices 3 rand) 3 triangle 3).length : Int)
  omega

theorem C12_triangle_minimum_witness :
    ([3, 1, 2] : List Int).Perm [1, 2, 3] ∧
    1 ≤ (randomizer [3, 1, 2] 3 triangle 3 (fun k => k)).solutionCount :=
  ⟨by decide, (C12_triangle_minimum [3, 1, 2] (fun k => k) (by decide)).1⟩

/-! ## Theorems: which fields the two buffer functions store to -/

/-- C17, as stated, fails: a successful `writeBuffer` changes `numberofEntries`
(from 0 to 1 on the empty initialised buffer). -/
theorem C17_counterexample :
    (initBuffer zeroBuffer).numberofEntries = 0 ∧
    (writeBuffer (initBuffer zeroBuffer) oneEdge 1 0).2.numberofEntries = 1 := by
  decide

/-- C17, amended. `readBuffer` modifies only `head` and `numberofEntries` (it
leaves `entries`, `entryEdgeNumbers`, `tail` and `size` as they are), and
`writeBuffer` never modifies `head` nor `size`; `readBuffer` in turn never
modifies `tail`, the records or the stored counts, which `writeBuffer` stores
to. The counter `numberofEntries` is written by both. -/
theorem C17_field_separation (b : buffer) (entry : Int → edge) (edgeNumber i n : Int) :
    ((readBuffer b n).b.entries = b.entries ∧
      (readBuffer b n).b.entryEdgeNumbers = b.entryEdgeNumbers ∧
      (readBuffer b n).b.tail = b.tail ∧
      (readBuffer b n).b.size = b.size) ∧
    ((writeBuffer b entry edgeNumber i).2.head = b.head ∧
      (writeBuffer b entry edgeNumber i).2.size = b.size) := by
  constructor
  · unfold readBuffer
    split <;> exact ⟨rfl, rfl, rfl, rfl⟩
  · unfold writeBuffer
    split <;> exact ⟨rfl, rfl⟩


/-! ## Theorems: one pass of the generator -/

/-- The cells of `toWrite` after the filling loop has run for the counters below `n`. -/
theorem fillToWrite_fold (solution : List edge) (edgeNumber : Int) (toWrite : Int → edge)
    (n : Nat) (c : Int) :
    (List.range n).foldl
      (fun (toWrite : Int → edge) (i : Nat) =>
        if (i : Int) < edgeNumber then
          Function.update toWrite (i : Int)
            ⟨(solution.getD i ⟨0, 0⟩).U, (solution.getD i ⟨0, 0⟩).V⟩
        else Function.update toWrite (i : Int) ⟨-1, -1⟩)
      toWrite c =
    if 0 ≤ c ∧ c < n then
      (if c < edgeNumber then solution.getD c.toNat ⟨0, 0⟩ else sentinel)
    else toWrite c := by
  induction n with
  | zero =>
      have : ¬ (0 ≤ c ∧ c < ((0 : Nat) : Int)) := by omega
      rw [if_neg this]
      rfl
  | succ n ih =>
      rw [List.range_succ, List.foldl_append, List.foldl_cons, List.foldl_nil]
      by_cases hc : c = (n : Int)
      · subst hc
        have h1 : (0 : Int) ≤ (n : Int) ∧ (n : Int) < ((n + 1 : Nat) : Int) := by omega
        rw [if_pos h1]
        split <;> simp [sentinel]
      · have hupd : ∀ (f : Int → edge) (v : edge), Function.update f (n : Int) v c = f c := by
          intro f v
          simp [Function.update, hc]
        have hsplit : (if (n : Int) < edgeNumber then
              Function.update
                ((List.range n).foldl
                  (fun (toWrite : Int → edge) (i : Nat) =>
                    if (i : Int) < edgeNumber then
                      Function.update toWrite (i : Int)
                        ⟨(solution.getD i ⟨0, 0⟩).U, (solution.getD i ⟨0, 0⟩).V⟩
                    else Function.update toWrite (i : Int) ⟨-1, -1⟩)
                  toWrite) (n : Int)
                ⟨(solution.getD n ⟨0, 0⟩).U, (solution.getD n ⟨0, 0⟩).V⟩
            else
              Function.update
                ((List.range n).foldl
                  (fun (toWrite : Int → edge) (i : Nat) =>
                    if (i : Int) < edgeNumber then
                      Function.update toWrite (i : Int)
                        ⟨(solution.getD i ⟨0, 0⟩).U, (solution.getD i ⟨0, 0⟩).V⟩
                    else Function.update toWrite (i : Int) ⟨-1, -1⟩)
                  toWrite) (n : Int) ⟨-1, -1⟩) c =
            (List.range n).foldl
              (fun (toWrite : Int → edge) (i : Nat) =>
                if (i : Int) < edgeNumber then
                  Function.update toWrite (i : Int)
                    ⟨(solution.getD i ⟨0, 0⟩).U, (solution.getD i ⟨0, 0⟩).V⟩
                else Function.update toWrite (i : Int) ⟨-1, -1⟩)
              toWrite c := by
          split <;> exact hupd _ _
        rw [hsplit, ih]
        by_cases h2 : 0 ≤ c ∧ c < (n : Int)
        · have h3 : 0 ≤ c ∧ c < ((n + 1 : Nat) : Int) := by omega
          rw [if_pos h2, if_pos h3]
        · have h3 : ¬ (0 ≤ c ∧ c < ((n + 1 : Nat) : Int)) := by omega
          rw [if_neg h2, if_neg h3]

/-- The record `toWrite` after the filling loop: the candidate's edges in
order in the cells below `edgeNumber`, sentinels in the other cells below 8. -/
theorem fillToWrite_apply (solution : List edge) (edgeNumber : Int) (toWrite : Int → edge)
    (c : Int) :
    fillToWrite solution edgeNumber toWrite c =
      if 0 ≤ c ∧ c < 8 then
        (if c < edgeNumber then solution.getD c.toNat ⟨0, 0⟩ else sentinel)
      else toWrite c := by
  unfold fillToWrite
  exact fillToWrite_fold solution edgeNumber toWrite 8 c

/-- C14. Capacity rejection in one pass of the generator's loop: if the
candidate returned by `randomizer` has more than 8 edges, `writeBuffer` is not
called and the buffer is left as it is; if it has at most 8 edges, `writeBuffer`
is called once, with a record holding the candidate's edges in order followed by
`(-1,-1)` up to cell 7 and with the candidate's edge count, which lies in 0..8,
the buffer after the pass is the buffer after that call, and on a buffer that
is not full that count is the one stored at `entryEdgeNumbers[old tail]`. -/
theorem C14_capacity_rejection (b : buffer) (uniqueVertices : List Int)
    (uniqueVerticeCount : Int) (edges : List edge) (edgeCount : Int) (toWrite : Int → edge)
    (rand : Nat → Nat) (i : Int) :
    (8 < (randomizer uniqueVertices uniqueVerticeCount edges edgeCount rand).solutionCount →
      (generatorPass b uniqueVertices uniqueVerticeCount edges edgeCount toWrite rand i).call
          = none ∧
      (generatorPass b uniqueVertices uniqueVerticeCount edges edgeCount toWrite rand i).b
          = b) ∧
    ((randomizer uniqueVertices uniqueVerticeCount edges edgeCount rand).solutionCount ≤ 8 →
      ∃ record : Int → edge,
        (generatorPass b uniqueVertices uniqueVerticeCount edges edgeCount toWrite rand i).call
          = some (Call.write record
              (randomizer uniqueVertices uniqueVerticeCount edges edgeCount rand).solutionCount
              i) ∧
        (generatorPass b uniqueVertices uniqueVerticeCount edges edgeCount toWrite rand i).b
          = (writeBuffer b record
              (randomizer uniqueVertices uniqueVerticeCount edges edgeCount rand).solutionCount
              i).2 ∧
        (∀ (c : Nat) (hc : c <
            (randomizer uniqueVertices uniqueVerticeCount edges edgeCount rand).solution.length),
          record c =
            (randomizer uniqueVertices uniqueVerticeCount edges edgeCount rand).solution.get
              ⟨c, hc⟩) ∧
        (∀ c : Int,
          (randomizer uniqueVertices uniqueVerticeCount edges edgeCount rand).solutionCount ≤ c →
          c < 8 → record c = sentinel) ∧
        0 ≤ (randomizer uniqueVertices uniqueVerticeCount edges edgeCount rand).solutionCount ∧
        (randomizer uniqueVertices uniqueVerticeCount edges edgeCount rand).solutionCount ≤ 8 ∧
        (b.numberofEntries ≠ b.size →
          (generatorPass b uniqueVertices uniqueVerticeCount edges edgeCount toWrite rand
            i).b.entryEdgeNumbers b.tail =
            (randomizer uniqueVertices uniqueVerticeCount edges edgeCount rand).solutionCount)) := by
  have hcount : (randomizer uniqueVertices uniqueVerticeCount edges edgeCount rand).solutionCount =
      ((randomizer uniqueVertices uniqueVerticeCount edges edgeCount rand).solution.length : Int) :=
    rfl
  constructor
  · intro h
    have hn : ¬ (randomizer uniqueVertices uniqueVerticeCount edges edgeCount rand).solutionCount
        < 9 := by omega
    simp only [generatorPass, if_neg hn]
    exact ⟨trivial, trivial⟩
  · intro h
    have hn : (randomizer uniqueVertices uniqueVerticeCount edges edgeCount rand).solutionCount
        < 9 := by omega
    refine ⟨fillToWrite (randomizer uniqueVertices uniqueVerticeCount edges edgeCount rand).solution
      (randomizer uniqueVertices uniqueVerticeCount edges edgeCount rand).solutionCount toWrite,
      ?_, ?_, ?_, ?_, ?_, h, ?_⟩
    · simp only [generatorPass, if_pos hn]
    · simp only [generatorPass, if_pos hn]
    · intro c hc
      rw [fillToWrite_apply, if_pos (by omega), if_pos (by omega)]
      simp [List.getD, hc]
    · intro c h1 h2
      rw [fillToWrite_apply]
      have hn0 : 0 ≤ c := by omega
      rw [if_pos ⟨hn0, h2⟩, if_neg (by omega)]
    · omega
    · intro hnf
      simp only [generatorPass, if_pos hn]
      rw [writeBuffer_of_not_full _ _ _ _ hnf]
      simp

/-! ## Theorems: the supervisor's best-known solution -/

theorem supervisorUpdate_best (sv : Supervisor) (read : Option Nat) (edgeNumber : Int) :
    (supervisorUpdate sv read edgeNumber).bestSolutionEdges =
      min sv.bestSolutionEdges edgeNumber := by
  unfold supervisorUpdate
  by_cases h : edgeNumber < sv.bestSolutionEdges
  · simp only [if_pos h]
    split <;> simp [min_eq_right (le_of_lt h)]
  · simp only [if_neg h]
    simp [min_eq_left (not_lt.mp h)]

theorem supervisorUpdate_pointer (sv : Supervisor) (read : Option Nat) (edgeNumber : Int) :
    (supervisorUpdate sv read edgeNumber).bestSolution =
      if edgeNumber < sv.bestSolutionEdges then read else sv.bestSolution := by
  unfold supervisorUpdate
  by_cases h : edgeNumber < sv.bestSolutionEdges
  · simp only [if_pos h]
    split <;> rfl
  · simp only [if_neg h]

theorem supervisorLoop_best (reads : List (Nat × Int)) :
    ∀ sv : Supervisor, sv.bestSolutionEdges ≠ 0 → (∀ x ∈ reads.dropLast, x.2 ≠ 0) →
      (supervisorLoop sv reads).bestSolutionEdges =
        (reads.map Prod.snd).foldl min sv.bestSolutionEdges := by
  induction reads with
  | nil => intro sv _ _; rfl
  | cons x rest ih =>
      intro sv h0 hz
      obtain ⟨p, c⟩ := x
      simp only [supervisorLoop, if_pos h0, List.map_cons, List.foldl_cons]
      cases rest with
      | nil =>
          simp only [supervisorLoop, List.map_nil, List.foldl_nil]
          exact supervisorUpdate_best sv (some p) c
      | cons y rest1 =>
          have hc : c ≠ 0 := hz (p, c) (by simp [List.dropLast])
          have hb : (supervisorUpdate sv (some p) c).bestSolutionEdges ≠ 0 := by
            rw [supervisorUpdate_best]
            rcases min_choice sv.bestSolutionEdges c with hm | hm <;> rw [hm] <;> assumption
          rw [ih _ hb (fun z hzm => hz z (by simp [List.dropLast, hzm])), supervisorUpdate_best]

/-- C15. The best-known solution is the running strict minimum: starting from
`bestSolutionEdges = INT_MAX`, after the supervisor's loop has processed
successfully read candidates with counts `c1..cm`, none but the last being 0,
`bestSolutionEdges = min(INT_MAX, c1, .., cm)`; once it is 0 the loop processes
nothing more. In each pass the best-known solution is replaced if and only if
the new count is strictly less than the current best: `bestSolutionEdges` never
increases and a tie keeps the earlier solution. -/
theorem C15_running_minimum (reads : List (Nat × Int)) (bestSolution tmpSolution : Option Nat)
    (hz : ∀ x ∈ reads.dropLast, x.2 ≠ 0) (sv : Supervisor) (read : Option Nat) (c : Int) :
    (supervisorLoop (supervisorStart bestSolution tmpSolution) reads).bestSolutionEdges =
      (reads.map Prod.snd).foldl min INT_MAX ∧
    (sv.bestSolutionEdges = 0 → supervisorLoop sv reads = sv) ∧
    (c < sv.bestSolutionEdges →
      (supervisorUpdate sv read c).bestSolutionEdges = c ∧
      (supervisorUpdate sv read c).bestSolution = read) ∧
    (¬ c < sv.bestSolutionEdges →
      (supervisorUpdate sv read c).bestSolutionEdges = sv.bestSolutionEdges ∧
      (supervisorUpdate sv read c).bestSolution = sv.bestSolution) ∧
    (supervisorUpdate sv read c).bestSolutionEdges ≤ sv.bestSolutionEdges := by
  refine ⟨?_, ?_, ?_, ?_, ?_⟩
  · have h0 : (supervisorStart bestSolution tmpSolution).bestSolutionEdges ≠ 0 := by
      show INT_MAX ≠ 0
      decide
    exact supervisorLoop_best reads (supervisorStart bestSolution tmpSolution) h0 hz
  · intro h
    cases reads with
    | nil => rfl
    | cons x rest =>
        obtain ⟨p, c1⟩ := x
        simp [supervisorLoop, h]
  · intro h
    rw [supervisorUpdate_best, supervisorUpdate_pointer, if_pos h]
    exact ⟨min_eq_right (le_of_lt h), rfl⟩
  · intro h
    rw [supervisorUpdate_best, supervisorUpdate_pointer, if_neg h]
    exact ⟨min_eq_left (not_lt.mp h), rfl⟩
  · rw [supervisorUpdate_best]
    exact min_le_left _ _

theorem C15_running_minimum_witness :
    (∀ x ∈ ([(0, 5), (1, 3), (2, 3), (3, 0)] : List (Nat × Int)).dropLast, x.2 ≠ 0) ∧
    (supervisorLoop (supervisorStart none none)
      [(0, 5), (1, 3), (2, 3), (3, 0)]).bestSolutionEdges = 0 ∧
    (supervisorLoop (supervisorStart none none) [(0, 5), (1, 3), (2, 3)]).bestSolution = some 1 :=
  ⟨by decide,
    (C15_running_minimum [(0, 5), (1, 3), (2, 3), (3, 0)] none none (by decide)
      (supervisorStart none none) none 0).1.trans (by decide),
    by decide⟩


/-! ## Theorems: the producer/consumer system -/

set_option maxRecDepth 100000

theorem writeBuffer_count_le (b : buffer) (entry : Int → edge) (edgeNumber i : Int) :
    (writeBuffer b entry edgeNumber i).2.numberofEntries ≤ b.numberofEntries + 1 := by
  unfold writeBuffer
  split
  · exact Nat.le_succ _
  · exact Nat.mod_le _ _

theorem readBuffer_count (b : buffer) (n : Int) (h : Bounds b) :
    (readBuffer b n).b.numberofEntries = b.numberofEntries - 1 := by
  obtain ⟨h1, h2, _, _⟩ := h
  by_cases he : b.numberofEntries = 0
  · rw [readBuffer_of_empty b n he, he]
  · rw [readBuffer_of_not_empty b n he]
    simp only [UINT_MOD]
    omega

theorem generatorPass_buffer (b : buffer) (uniqueVertices : List Int) (uniqueVerticeCount : Int)
    (edges : List edge) (edgeCount : Int) (toWrite : Int → edge) (rand : Nat → Nat) (i : Int) :
    (generatorPass b uniqueVertices uniqueVerticeCount edges edgeCount toWrite rand i).b = b ∨
    ∃ (entry : Int → edge) (edgeNumber : Int),
      (generatorPass b uniqueVertices uniqueVerticeCount edges edgeCount toWrite rand i).b =
        (writeBuffer b entry edgeNumber i).2 := by
  by_cases hacc : (randomizer uniqueVertices uniqueVerticeCount edges edgeCount rand).solutionCount
      < 9
  · simp only [generatorPass, if_pos hacc]
    exact Or.inr ⟨_, _, rfl⟩
  · simp only [generatorPass, if_neg hacc]
    exact Or.inl trivial

theorem accounting_of_reachable (s : SharedState) (h : SysReachable s) : Accounting s := by
  induction h with
  | start b0 bs ts =>
      exact ⟨rfl, Nat.le_refl _, bounds_initBuffer b0⟩
  | generator s uv uvc edges ec tw rand i _ _ hfree ih =>
      obtain ⟨h1, h2, h3⟩ := ih
      refine ⟨?_, ?_, ?_⟩
      · show s.free_slots - 1 + (s.used_slots + 1) = 32
        omega
      · show (generatorPass s.b uv uvc edges ec tw rand i).b.numberofEntries ≤ s.used_slots + 1
        rcases generatorPass_buffer s.b uv uvc edges ec tw rand i with hb | ⟨entry, n, hb⟩
        · rw [hb]; omega
        · rw [hb]
          have := writeBuffer_count_le s.b entry n i
          omega
      · show Bounds (generatorPass s.b uv uvc edges ec tw rand i).b
        rcases generatorPass_buffer s.b uv uvc edges ec tw rand i with hb | ⟨entry, n, hb⟩
        · rw [hb]; exact h3
        · rw [hb]; exact bounds_writeBuffer s.b entry n i h3
  | supervisor s _ _ _ hused ih =>
      obtain ⟨h1, h2, h3⟩ := ih
      refine ⟨?_, ?_, ?_⟩
      · show s.free_slots + 1 + (s.used_slots - 1) = 32
        omega
      · show (readBuffer s.b s.sup.tmpEdges).b.numberofEntries ≤ s.used_slots - 1
        rw [readBuffer_count s.b _ h3]
        omega
      · exact bounds_readBuffer s.b _ h3
  | signal s _ ih => exact ih
  | leave s _ _ ih => exact ih

theorem denseFirstStep_reachable : SysReachable denseFirstStep :=
  SysReachable.generator _ _ _ _ _ _ _ _ (SysReachable.start zeroBuffer none none) rfl
    (by decide)

/-- C13 at the failing input: a generator started on the eleven edges of
`denseEdges` (distinct vertices `[1,2,3,4,5]`) reaches, in its first iteration
with the draws 5, 8, 3, 2, the order `[2,3,4,5,1]`, whose candidate has 10 edges. The candidate is not
written, yet the iteration posts `s_used`: in the state reached `used_slots` is
1 and `numberofEntries` is 0. -/
theorem C13_accounting_fails :
    (duplicateRemover (vertexArray denseEdges) 22).uniqueList = [1, 2, 3, 4, 5] ∧
    (randomizer [1, 2, 3, 4, 5] 5 denseEdges 11 sampleDraws).vertices = [2, 3, 4, 5, 1] ∧
    (randomizer [1, 2, 3, 4, 5] 5 denseEdges 11 sampleDraws).solutionCount = 10 ∧
    SysReachable denseFirstStep ∧
    denseFirstStep.free_slots = 31 ∧
    denseFirstStep.used_slots = 1 ∧
    denseFirstStep.b.numberofEntries = 0 ∧
    ¬ denseFirstStep.used_slots ≤ denseFirstStep.b.numberofEntries := by
  refine ⟨by decide, by decide, by decide, denseFirstStep_reachable, by decide, by decide,
    by decide, by decide⟩

/-- C16 at the failing input: after the first iteration of a generator on
`denseEdges` (candidate of 10 edges, not written, `s_used` posted) the
supervisor passes its wait; `readBuffer` finds the buffer empty and returns the
null pointer, leaving `tmpEdges` at its initial 0, and the supervisor sets
`bestSolutionEdges = 0` and prints that the graph is acyclic, although no
record was read and the graph has the cycle `1 → 2 → 1`. -/
theorem C16_acyclic_without_read :
    SysReachable denseFirstStep ∧
    denseFirstStep.RUN = 1 ∧ denseFirstStep.sup.bestSolutionEdges = INT_MAX ∧
    0 < denseFirstStep.used_slots ∧
    SysReachable (supervisorStep denseFirstStep) ∧
    (readBuffer denseFirstStep.b denseFirstStep.sup.tmpEdges).read = none ∧
    (supervisorStep denseFirstStep).sup.bestSolutionEdges = 0 ∧
    (supervisorStep denseFirstStep).sup.bestSolution = none ∧
    (supervisorStep denseFirstStep).sup.output = [Report.acyclic] ∧
    ¬ acyclic denseEdges := by
  refine ⟨denseFirstStep_reachable, by decide, by decide, by decide,
    SysReachable.supervisor _ denseFirstStep_reachable (by decide) (by decide) (by decide),
    by decide, by decide, by decide, by decide, ?_⟩
  intro h
  have h12 : arc denseEdges 1 2 := by
    show (⟨1, 2⟩ : edge) ∈ denseEdges
    decide
  have h21 : arc denseEdges 2 1 := by
    show (⟨2, 1⟩ : edge) ∈ denseEdges
    decide
  exact h 1 (Relation.TransGen.tail (Relation.TransGen.single h12) h21)

/-- C20. The generator's ignored `writeBuffer` result is always true: in
every reachable state of the system in which a generator can pass its wait on
`s_free` (`free_slots > 0`) the buffer is not full, so every `writeBuffer` call
made in that state returns true, and the call the generator's pass makes, if it
makes one, returns true and the entry counter goes up by one: no accepted
candidate is dropped by a full buffer. -/
theorem C20_write_never_fails (s : SharedState) (h : SysReachable s) (hfree : 0 < s.free_slots)
    (uniqueVertices : List Int) (uniqueVerticeCount : Int) (edges : List edge) (edgeCount : Int)
    (toWrite : Int → edge) (rand : Nat → Nat) (i : Int) :
    s.b.numberofEntries < s.b.size ∧
    bufferFull s.b = false ∧
    (∀ (entry : Int → edge) (edgeNumber j : Int), (writeBuffer s.b entry edgeNumber j).1 = true) ∧
    (generatorPass s.b uniqueVertices uniqueVerticeCount edges edgeCount toWrite rand i).returned
      ≠ some false ∧
    ((randomizer uniqueVertices uniqueVerticeCount edges edgeCount rand).solutionCount < 9 →
      (generatorPass s.b uniqueVertices uniqueVerticeCount edges edgeCount toWrite rand
        i).returned = some true ∧
      (generatorPass s.b uniqueVertices uniqueVerticeCount edges edgeCount toWrite rand
        i).b.numberofEntries = s.b.numberofEntries + 1) := by
  obtain ⟨h1, h2, h3, h4, _, _⟩ := accounting_of_reachable s h
  have hlt : s.b.numberofEntries < s.b.size := by omega
  have hf : bufferFull s.b = false := by
    simp only [bufferFull, beq_eq_false_iff_ne]
    omega
  have hw : ∀ (entry : Int → edge) (edgeNumber j : Int),
      (writeBuffer s.b entry edgeNumber j).1 = true := by
    intro entry edgeNumber j
    rw [writeBuffer_fst, hf]
    rfl
  refine ⟨hlt, hf, hw, ?_, ?_⟩
  · by_cases hacc : (randomizer uniqueVertices uniqueVerticeCount edges edgeCount
        rand).solutionCount < 9
    · simp only [generatorPass, if_pos hacc]
      simp [hw]
    · simp only [generatorPass, if_neg hacc]
      simp
  · intro hacc
    simp only [generatorPass, if_pos hacc]
    refine ⟨by rw [hw], ?_⟩
    rw [writeBuffer_of_not_full _ _ _ _ (by omega)]
    simp only [UINT_MOD]
    omega

theorem C20_write_never_fails_witness :
    SysReachable denseFirstStep ∧ 0 < denseFirstStep.free_slots ∧
    (generatorPass denseFirstStep.b [1, 2, 3] 3 triangle 3 (fun _ => ⟨0, 0⟩) (fun _ => 0)
      0).returned = some true :=
  ⟨denseFirstStep_reachable, by decide,
    ((C20_write_never_fails denseFirstStep denseFirstStep_reachable (by decide) [1, 2, 3] 3
      triangle 3 (fun _ => ⟨0, 0⟩) (fun _ => 0) 0).2.2.2.2 (by decide)).1⟩

theorem C14_capacity_rejection_witness :
    (8 < (randomizer [1, 2, 3, 4, 5] 5 denseEdges 11 (fun _ => 0)).solutionCount) ∧
    (generatorPass (initBuffer zeroBuffer) [1, 2, 3, 4, 5] 5 denseEdges 11 (fun _ => ⟨0, 0⟩)
      (fun _ => 0) 0).b = initBuffer zeroBuffer :=
  ⟨by decide,
    ((C14_capacity_rejection (initBuffer zeroBuffer) [1, 2, 3, 4, 5] 5 denseEdges 11
      (fun _ => ⟨0, 0⟩) (fun _ => 0) 0).1 (by decide)).2⟩


/-! ## Theorems: deduplication of the vertices -/

theorem inList_eq_zero_iff (list : List Int) (element : Int) :
    inList list element list.length = 0 ↔ element ∉ list := by
  unfold inList
  have hany : (List.range list.length).any (fun i => list.getD i 0 == element) = true ↔
      element ∈ list := by
    rw [List.any_eq_true]
    constructor
    · rintro ⟨i, hi, he⟩
      rw [List.mem_range] at hi
      have hg : list.getD i 0 = list[i] := by simp [List.getD, hi]
      rw [hg] at he
      have : list[i] = element := by simpa using he
      rw [← this]
      exact List.getElem_mem hi
    · intro hm
      obtain ⟨i, hi, he⟩ := List.getElem_of_mem hm
      refine ⟨i, List.mem_range.mpr hi, ?_⟩
      have hg : list.getD i 0 = list[i] := by simp [List.getD, hi]
      rw [hg, he]
      simp
  by_cases hm : element ∈ list
  · rw [if_pos (hany.mpr hm)]
    simp [hm]
  · rw [if_neg (fun h => hm (hany.mp h))]
    simp [hm]

theorem map_getD_range (list : List Int) :
    (List.range list.length).map (fun i => list.getD i 0) = list := by
  apply List.ext_getElem
  · simp
  · intro i h1 h2
    simp [List.getD, h2]

/-- The loop of `duplicateRemover` as a fold over the input values. -/
theorem duplicateRemover_fold (list : List Int) :
    (List.range list.length).foldl (duplicateRemoverStep list) [] =
      list.foldl (fun acc x => if x ∈ acc then acc else acc ++ [x]) [] := by
  have h2 : duplicateRemoverStep list =
      fun acc i => (fun (acc : List Int) (x : Int) => if x ∈ acc then acc else acc ++ [x]) acc
        ((fun i => list.getD i 0) i) := by
    funext acc i
    unfold duplicateRemoverStep
    by_cases hm : list.getD i 0 ∈ acc
    · rw [if_neg (fun h0 => ((inList_eq_zero_iff acc _).mp h0) hm)]
      exact (if_pos hm).symm
    · rw [if_pos ((inList_eq_zero_iff acc _).mpr hm)]
      exact (if_neg hm).symm
  rw [h2]
  have h3 := List.foldl_map (fun i => list.getD i 0)
    (fun (acc : List Int) (x : Int) => if x ∈ acc then acc else acc ++ [x])
    (List.range list.length) []
  rw [map_getD_range] at h3
  exact h3.symm

theorem mem_firstOccurrences (l : List Int) (v : Int) : v ∈ firstOccurrences l ↔ v ∈ l := by
  induction l with
  | nil => simp [firstOccurrences]
  | cons a l ih =>
      simp only [firstOccurrences, List.mem_cons, List.mem_filter, ih, decide_eq_true_eq]
      by_cases h : v = a <;> simp [h]

theorem nodup_firstOccurrences (l : List Int) : (firstOccurrences l).Nodup := by
  induction l with
  | nil => simp [firstOccurrences]
  | cons a l ih =>
      simp only [firstOccurrences, List.nodup_cons]
      exact ⟨by simp [List.mem_filter], ih.filter _⟩

theorem length_firstOccurrences_le (l : List Int) : (firstOccurrences l).length ≤ l.length := by
  induction l with
  | nil => simp [firstOccurrences]
  | cons a l ih =>
      simp only [firstOccurrences, List.length_cons]
      have := List.length_filter_le (fun x => decide (x ≠ a)) (firstOccurrences l)
      omega

theorem firstOccurrences_filter (p : Int → Bool) (l : List Int) :
    firstOccurrences (l.filter p) = (firstOccurrences l).filter p := by
  induction l with
  | nil => simp [firstOccurrences]
  | cons a l ih =>
      by_cases h : p a = true
      · rw [List.filter_cons_of_pos h]
        simp only [firstOccurrences]
        rw [List.filter_cons_of_pos h, ih, List.filter_filter, List.filter_filter]
        congr 1
        apply List.filter_congr
        intro x _
        exact Bool.and_comm _ _
      · rw [List.filter_cons_of_neg h]
        simp only [firstOccurrences]
        rw [List.filter_cons_of_neg h, ih, List.filter_filter]
        apply List.filter_congr
        intro x _
        by_cases hx : x = a
        · subst hx
          simp [h]
        · simp [hx]

/-- The values are listed by increasing position of their first occurrence. -/
theorem pairwise_firstOccurrences (l : List Int) :
    (firstOccurrences l).Pairwise (fun x y => l.indexOf x < l.indexOf y) := by
  induction l with
  | nil => simp [firstOccurrences]
  | cons a l ih =>
      simp only [firstOccurrences, List.pairwise_cons]
      constructor
      · intro y hy
        have hya : y ≠ a := by simpa using (List.mem_filter.mp hy).2
        rw [List.indexOf_cons_self, List.indexOf_cons_ne _ (Ne.symm hya)]
        exact Nat.succ_pos _
      · have hsub := ih.sublist (List.filter_sublist (l := firstOccurrences l)
          (p := fun x => decide (x ≠ a)))
        refine hsub.imp_of_mem ?_
        intro x y hx hy hxy
        have hxa : x ≠ a := by simpa using (List.mem_filter.mp hx).2
        have hya : y ≠ a := by simpa using (List.mem_filter.mp hy).2
        rw [List.indexOf_cons_ne _ (Ne.symm hxa), List.indexOf_cons_ne _ (Ne.symm hya)]
        exact Nat.succ_lt_succ hxy

theorem dedup_fold (l : List Int) : ∀ acc : List Int,
    l.foldl (fun acc x => if x ∈ acc then acc else acc ++ [x]) acc =
      acc ++ firstOccurrences (l.filter (fun x => decide (x ∉ acc))) := by
  induction l with
  | nil => intro acc; simp [firstOccurrences]
  | cons a l ih =>
      intro acc
      rw [List.foldl_cons]
      by_cases h : a ∈ acc
      · rw [if_pos h, ih, List.filter_cons_of_neg (by simpa using h)]
      · rw [if_neg h, ih, List.filter_cons_of_pos (by simpa using h)]
        simp only [firstOccurrences, List.append_assoc, List.singleton_append]
        rw [← firstOccurrences_filter, List.filter_filter]
        congr 3
        apply List.filter_congr
        intro x _
        by_cases hx : x = a
        · subst hx
          simp
        · simp [hx]

/-- The array returned by `duplicateRemover` holds each value of the input at
the place of its first occurrence. -/
theorem duplicateRemover_eq (list : List Int) :
    (duplicateRemover list list.length).uniqueList = firstOccurrences list := by
  have h : ((list.length : Int)).toNat = list.length := by omega
  show (List.range ((list.length : Int)).toNat).foldl (duplicateRemoverStep list) [] = _
  rw [h, duplicateRemover_fold, dedup_fold]
  simp

/-- C18. `duplicateRemover` returns the distinct vertex set: for every input
array of `listLen ≥ 1` values, the returned array has no repeated value, holds
exactly the values that occur in the input, lists them in the order of their
first occurrences in the input, and `*uniqueCount` is its length, with
`1 ≤ uniqueCount ≤ listLen`. -/
theorem C18_duplicateRemover (list : List Int) (listLen : Int) (hlen : listLen = list.length)
    (hpos : 1 ≤ listLen) :
    (duplicateRemover list listLen).uniqueList.Nodup ∧
    (∀ v : Int, v ∈ (duplicateRemover list listLen).uniqueList ↔ v ∈ list) ∧
    (duplicateRemover list listLen).uniqueList = firstOccurrences list ∧
    (duplicateRemover list listLen).uniqueList.Pairwise
      (fun x y => list.indexOf x < list.indexOf y) ∧
    (duplicateRemover list listLen).uniqueCount =
      ((duplicateRemover list listLen).uniqueList.length : Int) ∧
    1 ≤ (duplicateRemover list listLen).uniqueCount ∧
    (duplicateRemover list listLen).uniqueCount ≤ listLen := by
  subst hlen
  have he := duplicateRemover_eq list
  have hc : (duplicateRemover list list.length).uniqueCount =
      ((duplicateRemover list list.length).uniqueList.length : Int) := rfl
  refine ⟨?_, ?_, he, ?_, hc, ?_, ?_⟩
  · rw [he]; exact nodup_firstOccurrences list
  · intro v; rw [he]; exact mem_firstOccurrences list v
  · rw [he]; exact pairwise_firstOccurrences list
  · rw [hc, he]
    cases list with
    | nil => simp at hpos
    | cons a l =>
        simp only [firstOccurrences, List.length_cons]
        omega
  · rw [hc, he]
    have := length_firstOccurrences_le list
    omega

theorem C18_duplicateRemover_witness :
    ((8 : Int) = ([2, 1, 3, 1, 3, 2, 4, 1] : List Int).length) ∧ (1 : Int) ≤ 8 ∧
    (duplicateRemover [2, 1, 3, 1, 3, 2, 4, 1] 8).uniqueList = [2, 1, 3, 4] ∧
    (duplicateRemover [2, 1, 3, 1, 3, 2, 4, 1] 8).uniqueList.Nodup :=
  ⟨by decide, by decide, by decide,
    (C18_duplicateRemover [2, 1, 3, 1, 3, 2, 4, 1] 8 (by decide) (by decide)).1⟩


/-! ## Theorems: the shuffle reaches every permutation once -/

theorem fisherYatesLoop_eq_shuffleBy (rand : Nat → Nat) (i : Nat) :
    ∀ (k : Nat) (list : List Int),
      fisherYatesLoop rand i k list = shuffleBy (fun m => rand (k + i - m)) i list := by
  induction i with
  | zero => intro k list; rfl
  | succ i ih =>
      intro k list
      simp only [fisherYatesLoop, shuffleBy]
      rw [ih]
      have h1 : k + (i + 1) - (i + 1) = k := by omega
      have h2 : (fun m => rand (k + 1 + i - m)) = (fun m => rand (k + (i + 1) - m)) := by
        funext m
        congr 1
        omega
      rw [h1, h2]

theorem shuffleBy_congr (c c1 : Nat → Nat) (i : Nat) :
    ∀ list : List Int, (∀ m, 1 ≤ m → m ≤ i → c m = c1 m) →
      shuffleBy c i list = shuffleBy c1 i list := by
  induction i with
  | zero => intro list _; rfl
  | succ i ih =>
      intro list h
      simp only [shuffleBy]
      rw [h (i + 1) (by omega) (le_refl _)]
      exact ih _ (fun m h1 h2 => h m h1 (by omega))

/-- The shuffle driven by a choice vector, in terms of `shuffleBy`. -/
theorem fisherYates_drawsOf (list : List Int) (c : Nat → Nat) :
    fisherYates list list.length (drawsOf list.length c) =
      shuffleBy c (list.length - 1) list := by
  unfold fisherYates
  have h : ((list.length : Int) - 1).toNat = list.length - 1 := by omega
  rw [h, fisherYatesLoop_eq_shuffleBy]
  apply shuffleBy_congr
  intro m h1 h2
  unfold drawsOf
  congr 1
  omega

theorem swapCells_getElem? (list : List Int) (i j : Nat) (hi : i < list.length)
    (hj : j < list.length) (m : Nat) :
    (swapCells list i j)[m]? =
      if m = i then list[j]? else if m = j then list[i]? else list[m]? := by
  have hgi : list.getD i 0 = list[i] := by simp [List.getD, hi]
  have hgj : list.getD j 0 = list[j] := by simp [List.getD, hj]
  simp only [swapCells, hgi, hgj]
  rw [List.getElem?_set, List.getElem?_set]
  by_cases h1 : m = i
  · subst h1
    simp [hi, hj]
  · by_cases h2 : m = j
    · subst h2
      have : ¬ i = m := fun h => h1 h.symm
      simp [this, h1, hi, hj]
    · have h3 : ¬ i = m := fun h => h1 h.symm
      have h4 : ¬ j = m := fun h => h2 h.symm
      simp [h1, h2, h3, h4]

theorem shuffleBy_length (c : Nat → Nat) (i : Nat) :
    ∀ list : List Int, (shuffleBy c i list).length = list.length := by
  induction i with
  | zero => intro list; rfl
  | succ i ih =>
      intro list
      simp only [shuffleBy]
      rw [ih, swapCells_length]

theorem shuffleBy_perm (c : Nat → Nat) (i : Nat) :
    ∀ list : List Int, i < list.length → (shuffleBy c i list).Perm list := by
  induction i with
  | zero => intro list _; exact List.Perm.refl _
  | succ i ih =>
      intro list h
      simp only [shuffleBy]
      have hj : c (i + 1) % (i + 1 + 1) < list.length :=
        lt_of_lt_of_le (Nat.mod_lt _ (by omega)) (by omega)
      exact (ih _ (by rw [swapCells_length]; omega)).trans (swapCells_perm list _ _ h hj)

/-- The passes with counters up to `i` leave the cells beyond `i` alone. -/
theorem shuffleBy_getElem?_of_lt (c : Nat → Nat) (i : Nat) :
    ∀ (list : List Int) (m : Nat), i < list.length → i < m →
      (shuffleBy c i list)[m]? = list[m]? := by
  induction i with
  | zero => intro list m _ _; rfl
  | succ i ih =>
      intro list m h hm
      simp only [shuffleBy]
      have hjlt : c (i + 1) % (i + 1 + 1) < i + 1 + 1 := Nat.mod_lt _ (by omega)
      rw [ih _ m (by rw [swapCells_length]; omega) (by omega),
        swapCells_getElem? list _ _ h (by omega)]
      rw [if_neg (by omega), if_neg (by omega)]

/-- The pass with counter `i + 1` settles the cell `i + 1`: it holds the value
the drawn cell held before the pass. -/
theorem shuffleBy_succ_getElem? (c : Nat → Nat) (i : Nat) (list : List Int)
    (h : i + 1 < list.length) :
    (shuffleBy c (i + 1) list)[i + 1]? = list[c (i + 1) % (i + 1 + 1)]? := by
  simp only [shuffleBy]
  have hjlt : c (i + 1) % (i + 1 + 1) < i + 1 + 1 := Nat.mod_lt _ (by omega)
  rw [shuffleBy_getElem?_of_lt c i _ (i + 1) (by rw [swapCells_length]; omega) (by omega),
    swapCells_getElem? list _ _ h (by omega), if_pos rfl]

/-- Two choice vectors that lead to the same array agree. -/
theorem shuffleBy_injective (c c1 : Nat → Nat) (i : Nat) :
    ∀ list : List Int, list.Nodup → i < list.length →
      (∀ m, 1 ≤ m → m ≤ i → c m ≤ m) → (∀ m, 1 ≤ m → m ≤ i → c1 m ≤ m) →
      shuffleBy c i list = shuffleBy c1 i list → ∀ m, 1 ≤ m → m ≤ i → c m = c1 m := by
  induction i with
  | zero =>
      intro list _ _ _ _ _ m h1 h2
      omega
  | succ i ih =>
      intro list hn h hc hc1 heq m h1 h2
      have e1 : c (i + 1) % (i + 1 + 1) = c (i + 1) :=
        Nat.mod_eq_of_lt (by have := hc (i + 1) (by omega) (le_refl _); omega)
      have e2 : c1 (i + 1) % (i + 1 + 1) = c1 (i + 1) :=
        Nat.mod_eq_of_lt (by have := hc1 (i + 1) (by omega) (le_refl _); omega)
      have hb := hc (i + 1) (by omega) (le_refl _)
      have hb1 := hc1 (i + 1) (by omega) (le_refl _)
      have hcell : list[c (i + 1)]? = list[c1 (i + 1)]? := by
        have a1 := shuffleBy_succ_getElem? c i list h
        have a2 := shuffleBy_succ_getElem? c1 i list h
        rw [e1] at a1
        rw [e2] at a2
        rw [← a1, ← a2, heq]
      have hlast : c (i + 1) = c1 (i + 1) := by
        have hl1 : c (i + 1) < list.length := by omega
        have hl2 : c1 (i + 1) < list.length := by omega
        rw [List.getElem?_eq_getElem hl1, List.getElem?_eq_getElem hl2] at hcell
        exact (hn.getElem_inj_iff).mp (Option.some.inj hcell)
      by_cases hm : m = i + 1
      · rw [hm]; exact hlast
      · have heq1 : shuffleBy c i (swapCells list (i + 1) (c (i + 1))) =
            shuffleBy c1 i (swapCells list (i + 1) (c (i + 1))) := by
          have := heq
          simp only [shuffleBy] at this
          rw [e1, e2, ← hlast] at this
          exact this
        have hp := swapCells_perm list (i + 1) (c (i + 1)) h (by omega)
        exact ih _ (hp.nodup_iff.mpr hn) (by rw [swapCells_length]; omega)
          (fun m h1 h2 => hc m h1 (by omega)) (fun m h1 h2 => hc1 m h1 (by omega)) heq1 m h1
          (by omega)

/-- Every arrangement of the array that differs from it only in the cells up
to `i` is reached by some choice vector. -/
theorem shuffleBy_surjective (i : Nat) :
    ∀ (list p : List Int), list.Nodup → i < list.length → p.Perm list →
      (∀ m, i < m → p[m]? = list[m]?) →
      ∃ c : Nat → Nat, (∀ m, c m ≤ m) ∧ shuffleBy c i list = p := by
  induction i with
  | zero =>
      intro list p hn h hp hag
      refine ⟨fun _ => 0, fun m => Nat.zero_le _, ?_⟩
      show list = p
      cases list with
      | nil => simp at h
      | cons a t =>
          cases p with
          | nil => exact absurd hp.length_eq (by simp)
          | cons b t1 =>
              have ht : t1 = t := by
                apply List.ext_getElem?
                intro m
                have := hag (m + 1) (by omega)
                simpa using this
              subst ht
              have hb : b ∈ a :: t1 := hp.mem_iff.mp (List.mem_cons_self _ _)
              have hnb : b ∉ t1 := (List.nodup_cons.mp (hp.nodup_iff.mpr hn)).1
              rcases List.mem_cons.mp hb with hba | hbt
              · rw [hba]
              · exact absurd hbt hnb
  | succ i ih =>
      intro list p hn h hp hag
      have hpl : p.length = list.length := hp.length_eq
      have hpn : p.Nodup := hp.nodup_iff.mpr hn
      have hi1 : i + 1 < p.length := by omega
      have hx : p[i + 1] ∈ list := hp.mem_iff.mp (List.getElem_mem hi1)
      have hjl : list.indexOf p[i + 1] < list.length := List.indexOf_lt_length.mpr hx
      have hjv : list[list.indexOf p[i + 1]] = p[i + 1] := List.getElem_indexOf hjl
      have hjle : list.indexOf p[i + 1] ≤ i + 1 := by
        by_contra hgt
        have hgt1 : i + 1 < list.indexOf p[i + 1] := by omega
        have h1 := hag _ hgt1
        have hjp : list.indexOf p[i + 1] < p.length := by omega
        rw [List.getElem?_eq_getElem hjp, List.getElem?_eq_getElem hjl] at h1
        have h2 : p[list.indexOf p[i + 1]] = p[i + 1] := (Option.some.inj h1).trans hjv
        have := (hpn.getElem_inj_iff).mp h2
        omega
      have hsp := swapCells_perm list (i + 1) (list.indexOf p[i + 1]) h hjl
      have hag1 : ∀ m, i < m →
          p[m]? = (swapCells list (i + 1) (list.indexOf p[i + 1]))[m]? := by
        intro m hm
        rw [swapCells_getElem? list _ _ h hjl]
        by_cases hm1 : m = i + 1
        · subst hm1
          rw [if_pos rfl, List.getElem?_eq_getElem hi1, List.getElem?_eq_getElem hjl, hjv]
        · rw [if_neg hm1, if_neg (by omega)]
          exact hag m (by omega)
      obtain ⟨c1, hc1, hs1⟩ := ih (swapCells list (i + 1) (list.indexOf p[i + 1])) p
        (hsp.nodup_iff.mpr hn) (by rw [swapCells_length]; omega) (hp.trans hsp.symm) hag1
      refine ⟨fun m => if m = i + 1 then list.indexOf p[i + 1] else c1 m, ?_, ?_⟩
      · intro m
        by_cases hm : m = i + 1
        · simp only [if_pos hm]; omega
        · simp only [if_neg hm]; exact hc1 m
      · simp only [shuffleBy, if_pos]
        rw [Nat.mod_eq_of_lt (by omega)]
        refine (shuffleBy_congr _ c1 i _ ?_).trans hs1
        intro m _ h2
        have : m ≠ i + 1 := by omega
        simp only [if_neg this]


theorem shuffleBy_congr_mod (c c1 : Nat → Nat) (i : Nat) :
    ∀ list : List Int, (∀ m, 1 ≤ m → m ≤ i → c m % (m + 1) = c1 m % (m + 1)) →
      shuffleBy c i list = shuffleBy c1 i list := by
  induction i with
  | zero => intro list _; rfl
  | succ i ih =>
      intro list h
      simp only [shuffleBy]
      rw [h (i + 1) (by omega) (le_refl _)]
      exact ih _ (fun m h1 h2 => h m h1 (by omega))

/-- Every run of `fisherYates` is the run of a choice vector: the pass with
counter `i` picks `rand() % (i + 1)`, which lies in `0..i`. -/
theorem fisherYates_choice (list : List Int) (rand : Nat → Nat) :
    choiceVector list.length (fun i => rand (list.length - 1 - i) % (i + 1)) ∧
    fisherYates list list.length rand =
      fisherYates list list.length
        (drawsOf list.length (fun i => rand (list.length - 1 - i) % (i + 1))) := by
  constructor
  · intro i _ _
    have : rand (list.length - 1 - i) % (i + 1) < i + 1 := Nat.mod_lt _ (Nat.succ_pos i)
    show rand (list.length - 1 - i) % (i + 1) ≤ i
    omega
  · rw [fisherYates_drawsOf]
    unfold fisherYates
    have h : ((list.length : Int) - 1).toNat = list.length - 1 := by omega
    rw [h, fisherYatesLoop_eq_shuffleBy]
    apply shuffleBy_congr_mod
    intro m _ _
    show rand (0 + (list.length - 1) - m) % (m + 1) =
      rand (list.length - 1 - m) % (m + 1) % (m + 1)
    rw [Nat.mod_mod, Nat.zero_add]

/-- C19. The shuffle reaches every permutation exactly once. For every array
of `n` distinct values, with the draws given by a choice vector (`0 ≤ c i ≤ i`
for `i = n - 1` down to 1): every choice vector leaves a permutation of the
array; two choice vectors that leave the same array are equal; every
permutation of the array is left by some choice vector; every run of
`fisherYates` is the run of a choice vector; and the array has `n!`
permutations. So the map from choice vectors to outputs is a bijection onto
the `n!` permutations. -/
theorem C19_shuffle_bijection (list : List Int) (hn : list.Nodup) :
    (∀ c : Nat → Nat, choiceVector list.length c →
      (fisherYates list list.length (drawsOf list.length c)).Perm list) ∧
    (∀ c c1 : Nat → Nat, choiceVector list.length c → choiceVector list.length c1 →
      fisherYates list list.length (drawsOf list.length c) =
        fisherYates list list.length (drawsOf list.length c1) →
      ∀ i : Nat, 1 ≤ i → i < list.length → c i = c1 i) ∧
    (∀ p : List Int, p.Perm list →
      ∃ c : Nat → Nat, choiceVector list.length c ∧
        fisherYates list list.length (drawsOf list.length c) = p) ∧
    (∀ rand : Nat → Nat, ∃ c : Nat → Nat, choiceVector list.length c ∧
      fisherYates list list.length rand =
        fisherYates list list.length (drawsOf list.length c)) ∧
    (list.permutations.length = list.length.factorial ∧ list.permutations.Nodup ∧
      ∀ p : List Int, p ∈ list.permutations ↔ p.Perm list) := by
  refine ⟨?_, ?_, ?_, ?_, ?_⟩
  · intro c _
    exact fisherYates_perm list _
  · intro c c1 hc hc1 heq i h1 h2
    rw [fisherYates_drawsOf, fisherYates_drawsOf] at heq
    exact shuffleBy_injective c c1 (list.length - 1) list hn (by omega)
      (fun m a b => hc m a (by omega)) (fun m a b => hc1 m a (by omega)) heq i h1 (by omega)
  · intro p hp
    by_cases h0 : list.length = 0
    · have hl : list = [] := List.length_eq_zero.mp h0
      subst hl
      have hpn : p = [] := List.Perm.eq_nil hp
      subst hpn
      exact ⟨fun _ => 0, fun i _ h => absurd h (by simp), rfl⟩
    · obtain ⟨c, hc, hs⟩ := shuffleBy_surjective (list.length - 1) list p hn (by omega) hp
        (by
          intro m hm
          have hpl : p.length = list.length := hp.length_eq
          rw [List.getElem?_eq_none (by omega), List.getElem?_eq_none (by omega)])
      exact ⟨c, fun i _ _ => hc i, by rw [fisherYates_drawsOf]; exact hs⟩
  · intro rand
    exact ⟨_, (fisherYates_choice list rand).1, (fisherYates_choice list rand).2⟩
  · exact ⟨List.length_permutations list, List.nodup_permutations list hn,
      fun p => List.mem_permutations⟩

theorem C19_shuffle_bijection_witness :
    ([1, 2, 3] : List Int).Nodup ∧
    fisherYates [1, 2, 3] 3 (drawsOf 3 (fun i => i - 1)) = [3, 1, 2] ∧
    ∃ c : Nat → Nat, choiceVector ([1, 2, 3] : List Int).length c ∧
      fisherYates [1, 2, 3] ([1, 2, 3] : List Int).length
        (drawsOf ([1, 2, 3] : List Int).length c) = [3, 1, 2] :=
  ⟨by decide, by decide, (C19_shuffle_bijection [1, 2, 3] (by decide)).2.2.1 [3, 1, 2] (by decide)⟩


/-! ## Theorems: the bounds of the scratch arrays -/

theorem collectStep_length_ge (vertices : List Int) (edges : List edge) (i j : Nat)
    (acc : List edge) (k : Nat) : acc.length ≤ (collectStep vertices edges i j acc k).length := by
  unfold collectStep
  split
  · simp
  · exact Nat.le_refl _

/-- One pass of the watched loop body on a list that is within the capacity,
or already beyond it, is the plain pass followed by the test of the capacity. -/
theorem collectStepChecked_withinCapacity (capacity : Int) (vertices : List Int)
    (edges : List edge) (i j : Nat) (acc : List edge) (k : Nat) :
    collectStepChecked capacity vertices edges i j (withinCapacity capacity acc) k =
      withinCapacity capacity (collectStep vertices edges i j acc k) := by
  by_cases hacc : (acc.length : Int) ≤ capacity
  · have hw : withinCapacity capacity acc = some acc := by simp [withinCapacity, hacc]
    rw [hw]
    unfold collectStepChecked collectStep
    by_cases hc : (edges.getD k ⟨0, 0⟩).U = vertices.getD j 0 ∧
        (edges.getD k ⟨0, 0⟩).V = vertices.getD i 0
    · simp only [if_pos hc]
      by_cases hlt : (acc.length : Int) < capacity
      · have : ((acc ++ [(⟨vertices.getD j 0, vertices.getD i 0⟩ : edge)]).length : Int)
            ≤ capacity := by
          rw [List.length_append, List.length_singleton]
          push_cast
          omega
        simp only [if_pos hlt, withinCapacity, if_pos this]
      · have : ¬ ((acc ++ [(⟨vertices.getD j 0, vertices.getD i 0⟩ : edge)]).length : Int)
            ≤ capacity := by
          rw [List.length_append, List.length_singleton]
          push_cast
          omega
        simp only [if_neg hlt, withinCapacity, if_neg this]
    · simp only [if_neg hc, withinCapacity, if_pos hacc]
  · have hw : withinCapacity capacity acc = none := by simp [withinCapacity, hacc]
    have hge := collectStep_length_ge vertices edges i j acc k
    have hnot : ¬ ((collectStep vertices edges i j acc k).length : Int) ≤ capacity := by omega
    rw [hw]
    simp only [collectStepChecked, withinCapacity, if_neg hnot]

theorem foldl_transport {α β γ : Type} (f : β → α → β) (g : γ → α → γ) (φ : β → γ)
    (h : ∀ acc x, g (φ acc) x = φ (f acc x)) :
    ∀ (l : List α) (acc : β), l.foldl g (φ acc) = φ (l.foldl f acc) := by
  intro l
  induction l with
  | nil => intro acc; rfl
  | cons x l ih =>
      intro acc
      rw [List.foldl_cons, List.foldl_cons, h, ih]

theorem scratchCapacity_nonneg (n : Nat) : 0 ≤ scratchCapacity n := by
  unfold scratchCapacity
  apply Int.tdiv_nonneg
  · positivity
  · decide

/-- The watched loops are the plain loops followed by the test of the capacity:
every store falls inside the scratch arrays exactly when the number of
collected edges does not exceed their capacity. -/
theorem collectChecked_eq (vertices : List Int) (verticeCount : Int) (edges : List edge)
    (edgeCount : Int) (h0 : 0 ≤ scratchCapacity verticeCount) :
    collectChecked vertices verticeCount edges edgeCount =
      withinCapacity (scratchCapacity verticeCount)
        (collect vertices verticeCount edges edgeCount) := by
  have hnil : (some [] : Option (List edge)) =
      withinCapacity (scratchCapacity verticeCount) [] := by
    simp [withinCapacity, h0]
  unfold collectChecked collect
  rw [hnil]
  apply foldl_transport
  intro acc i
  apply foldl_transport
  intro acc j
  apply foldl_transport
  intro acc k
  exact collectStepChecked_withinCapacity _ vertices edges i j acc k

theorem length_le_one_of_nodup_of_eq {α : Type} (l : List α) (a : α) (hn : l.Nodup)
    (h : ∀ x ∈ l, x = a) : l.length ≤ 1 := by
  cases l with
  | nil => simp
  | cons x t =>
      cases t with
      | nil => simp
      | cons y t1 =>
          exfalso
          have hx : x = a := h x (by simp)
          have hy : y = a := h y (by simp)
          have hne : x ≠ y := by
            intro hxy
            rw [List.nodup_cons] at hn
            exact hn.1 (by rw [hxy]; simp)
          exact hne (hx.trans hy.symm)

/-- The pairs `i < j` below `n` visited by the two outer loops, counted row by row. -/
theorem sum_pairs (n : Nat) : ∀ m : Nat, m ≤ n →
    2 * ((List.range m).map (fun i => n - (i + 1))).sum + m * (m + 1) = 2 * m * n := by
  intro m
  induction m with
  | zero => intro _; simp
  | succ m ih =>
      intro h
      have ih1 := ih (by omega)
      rw [List.sum_range_succ]
      have hd : n - (m + 1) + (m + 1) = n := by omega
      generalize n - (m + 1) = d at hd ⊢
      subst hd
      ring_nf
      ring_nf at ih1
      omega

/-- Without repeated edges the loops collect at most one edge for each pair of
positions `i < j`, that is at most `n * (n - 1) / 2` edges. -/
theorem collect_length_of_nodup (vertices : List Int) (edges : List edge) (hn : edges.Nodup) :
    2 * (collect vertices vertices.length edges edges.length).length ≤
      vertices.length * (vertices.length - 1) := by
  rw [collect_eq, List.length_flatMap]
  have hinner : ∀ i ∈ List.range (vertices.length - 1),
      (List.length ∘ fun i =>
        (List.range' (i + 1) (vertices.length - (i + 1))).flatMap (fun j =>
          edges.filter (fun e => decide (e.U = vertices.getD j 0 ∧ e.V = vertices.getD i 0)))) i
        ≤ (fun i => vertices.length - (i + 1)) i := by
    intro i _
    simp only [Function.comp]
    rw [List.length_flatMap]
    have hcell : ∀ j ∈ List.range' (i + 1) (vertices.length - (i + 1)),
        (List.length ∘ fun j =>
          edges.filter (fun e => decide (e.U = vertices.getD j 0 ∧ e.V = vertices.getD i 0))) j
          ≤ (fun _ => 1) j := by
      intro j _
      simp only [Function.comp]
      apply length_le_one_of_nodup_of_eq _ (⟨vertices.getD j 0, vertices.getD i 0⟩ : edge)
        (hn.filter _)
      intro x hx
      have := (List.mem_filter.mp hx).2
      simp only [decide_eq_true_eq] at this
      cases x
      simp only at this
      rw [this.1, this.2]
    have := List.sum_le_sum hcell
    simpa using this
  have hsum := List.sum_le_sum hinner
  by_cases h0 : vertices.length = 0
  · rw [h0]
    simp
  · have hg := sum_pairs vertices.length (vertices.length - 1) (by omega)
    have hm : vertices.length - 1 + 1 = vertices.length := by omega
    rw [hm] at hg
    have hmul : 2 * (vertices.length - 1) * vertices.length =
        2 * ((vertices.length - 1) * vertices.length) := by ring
    have hcomm : vertices.length * (vertices.length - 1) =
        (vertices.length - 1) * vertices.length := Nat.mul_comm _ _
    rw [hmul] at hg
    rw [hcomm]
    omega

/-- Without repeated edges every store of `randomizer` falls inside the scratch
arrays: the watched loops collect what the plain loops collect. -/
theorem collectChecked_of_nodup (vertices : List Int) (edges : List edge) (hn : edges.Nodup) :
    collectChecked vertices vertices.length edges edges.length =
      some (collect vertices vertices.length edges edges.length) := by
  rw [collectChecked_eq _ _ _ _ (scratchCapacity_nonneg _)]
  have hlen := collect_length_of_nodup vertices edges hn
  have hcap : ((collect vertices vertices.length edges edges.length).length : Int) ≤
      scratchCapacity vertices.length := by
    unfold scratchCapacity
    rw [Int.tdiv_eq_ediv (by positivity) (by decide), Int.le_ediv_iff_mul_le (by decide)]
    have h1 : vertices.length * (vertices.length - 1) ≤ vertices.length * (vertices.length + 1) :=
      Nat.mul_le_mul_left _ (by omega)
    have h2 : (collect vertices vertices.length edges edges.length).length * 2 ≤
        vertices.length * (vertices.length + 1) := by omega
    exact_mod_cast h2
  simp [withinCapacity, hcap]

theorem fisherYates_pair (rand : Nat → Nat) :
    fisherYates [1, 2] 2 rand = [2, 1] ∨ fisherYates [1, 2] 2 rand = [1, 2] := by
  have h : fisherYates [1, 2] 2 rand = swapCells [1, 2] 1 (rand 0 % 2) := rfl
  rw [h]
  rcases Nat.mod_two_eq_zero_or_one (rand 0) with h0 | h1
  · rw [h0]; left; decide
  · rw [h1]; right; decide

/-- C21 at the failing input: for the accepted edge list `1-2` (four times),
`2-1` (four times), whose distinct vertices are `[1,2]`, the scratch arrays
have `2 * 3 / 2 = 3` cells each, and whatever the draws `randomizer` collects
four edges: the fourth is stored at `listIndex = 3`, outside `U` and `V`. -/
theorem C21_scratch_overflow (rand : Nat → Nat) :
    (duplicateRemover (vertexArray repeatedEdges) 16).uniqueList = [1, 2] ∧
    scratchCapacity 2 = 3 ∧
    (randomizer [1, 2] 2 repeatedEdges 8 rand).solutionCount = 4 ∧
    ¬ (randomizer [1, 2] 2 repeatedEdges 8 rand).solutionCount ≤ scratchCapacity 2 ∧
    collectChecked (randomizer [1, 2] 2 repeatedEdges 8 rand).vertices 2 repeatedEdges 8 =
      none := by
  have hv : (randomizer [1, 2] 2 repeatedEdges 8 rand).vertices = fisherYates [1, 2] 2 rand :=
    rfl
  have hc : (randomizer [1, 2] 2 repeatedEdges 8 rand).solutionCount =
      ((collect (fisherYates [1, 2] 2 rand) 2 repeatedEdges 8).length : Int) := rfl
  rw [hv, hc]
  refine ⟨by decide, by decide, ?_, ?_, ?_⟩ <;>
    rcases fisherYates_pair rand with h | h <;> rw [h] <;> decide

/-- The watched `randomizer` is the plain one followed by the test of the
capacity of the scratch arrays. -/
theorem randomizerChecked_eq (vertices : List Int) (verticeCount : Int) (edges : List edge)
    (edgeCount : Int) (rand : Nat → Nat) (h0 : 0 ≤ scratchCapacity verticeCount) :
    randomizerChecked vertices verticeCount edges edgeCount rand =
      if (randomizer vertices verticeCount edges edgeCount rand).solutionCount ≤
          scratchCapacity verticeCount then
        some (randomizer vertices verticeCount edges edgeCount rand)
      else none := by
  unfold randomizerChecked
  simp only [collectChecked_eq _ _ _ _ h0, withinCapacity]
  have hc : (randomizer vertices verticeCount edges edgeCount rand).solutionCount =
      ((collect (fisherYates vertices verticeCount rand) verticeCount edges
        edgeCount).length : Int) := rfl
  rw [hc]
  by_cases h : ((collect (fisherYates vertices verticeCount rand) verticeCount edges
      edgeCount).length : Int) ≤ scratchCapacity verticeCount
  · simp only [if_pos h]
    rfl
  · simp only [if_neg h]

/-- Without repeated edges `randomizer` keeps every store inside its scratch
arrays and returns a candidate. -/
theorem randomizerChecked_of_nodup (vertices : List Int) (edges : List edge)
    (rand : Nat → Nat) (he : edges.Nodup) :
    randomizerChecked vertices vertices.length edges edges.length rand =
      some (randomizer vertices vertices.length edges edges.length rand) := by
  have hp := fisherYates_perm vertices rand
  have hlen : ((fisherYates vertices vertices.length rand).length : Int) = vertices.length := by
    rw [hp.length_eq]
  have h := collectChecked_of_nodup (fisherYates vertices vertices.length rand) edges he
  rw [hlen] at h
  unfold randomizerChecked
  simp only [h]
  rfl

/-- When every store of `randomizer` falls inside the scratch arrays, the
candidate it returns over a duplicate-free vertex list consists of exactly the
input edges `(U,V)` whose `U` stands at a strictly later position than `V` in
the order left by the shuffle: each such edge once per occurrence in the input,
no other edge, and `*solutionCount` is their number. -/
theorem randomizerChecked_collects_backward (vertices : List Int) (edges : List edge)
    (rand : Nat → Nat) (r : RandomizerResult) (hn : vertices.Nodup)
    (hr : randomizerChecked vertices vertices.length edges edges.length rand = some r) :
    r.vertices.Perm vertices ∧
    r.solution.Perm (edges.filter (fun e => decide (backward r.vertices e))) ∧
    (∀ e : edge, r.solution.count e = if backward r.vertices e then edges.count e else 0) ∧
    (∀ e : edge, e ∈ r.solution ↔ e ∈ edges ∧ backward r.vertices e) ∧
    r.solutionCount = ((edges.filter (fun e => decide (backward r.vertices e))).length : Int) := by
  rw [randomizerChecked_eq _ _ _ _ _ (scratchCapacity_nonneg _)] at hr
  have hr1 : randomizer vertices vertices.length edges edges.length rand = r := by
    split at hr
    · exact Option.some.inj hr
    · exact absurd hr (by simp)
  subst hr1
  have hp := fisherYates_perm vertices rand
  have hn1 : (fisherYates vertices vertices.length rand).Nodup := hp.nodup_iff.mpr hn
  have hlen : ((fisherYates vertices vertices.length rand).length : Int) = vertices.length := by
    rw [hp.length_eq]
  have hc := collect_perm (fisherYates vertices vertices.length rand) edges hn1
  have hcnt := count_collect (fisherYates vertices vertices.length rand) edges hn1
  have hmem := mem_collect (fisherYates vertices vertices.length rand) edges hn1
  rw [hlen] at hc hcnt hmem
  refine ⟨hp, hc, hcnt, hmem, ?_⟩
  show ((collect (fisherYates vertices vertices.length rand) vertices.length edges
    edges.length).length : Int) = _
  rw [hc.length_eq]
  rfl

/-- When every store of `randomizer` falls inside the scratch arrays, removing
the candidate it returns from a graph without self-loop edges, over a
duplicate-free list holding both vertices of every edge, leaves no directed cycle. -/
theorem randomizerChecked_feedback_arc_set (vertices : List Int) (edges : List edge)
    (rand : Nat → Nat) (r : RandomizerResult) (hn : vertices.Nodup)
    (hv : ∀ e ∈ edges, e.U ∈ vertices ∧ e.V ∈ vertices) (hl : ∀ e ∈ edges, e.U ≠ e.V)
    (hr : randomizerChecked vertices vertices.length edges edges.length rand = some r) :
    acyclic (removeEdges edges r.solution) := by
  rw [randomizerChecked_eq _ _ _ _ _ (scratchCapacity_nonneg _)] at hr
  have hr1 : randomizer vertices vertices.length edges edges.length rand = r := by
    split at hr
    · exact Option.some.inj hr
    · exact absurd hr (by simp)
  subst hr1
  have hp := fisherYates_perm vertices rand
  have hn1 : (fisherYates vertices vertices.length rand).Nodup := hp.nodup_iff.mpr hn
  have hlen : ((fisherYates vertices vertices.length rand).length : Int) = vertices.length := by
    rw [hp.length_eq]
  have h1 := acyclic_removeEdges_collect (fisherYates vertices vertices.length rand) edges hn1
    (fun e he => ⟨hp.mem_iff.mpr (hv e he).1, hp.mem_iff.mpr (hv e he).2⟩) hl
  rw [hlen] at h1
  exact h1

/-- C9 at the failing input: for the accepted edge list `1-2` (four times),
`2-1` (four times) over the duplicate-free vertex list `[1,2]`, four input
edges point backward in whichever order the shuffle leaves, but the scratch
arrays have 3 cells: the fourth store falls outside them and `randomizer` has
no candidate to return, whatever the draws. -/
theorem C9_collection_overflows (rand : Nat → Nat) :
    (duplicateRemover (vertexArray repeatedEdges) 16).uniqueList = [1, 2] ∧
    ([1, 2] : List Int).Nodup ∧
    (repeatedEdges.filter
      (fun e => decide (backward (fisherYates [1, 2] 2 rand) e))).length = 4 ∧
    scratchCapacity 2 = 3 ∧
    randomizerChecked [1, 2] 2 repeatedEdges 8 rand = none := by
  have hnone : collectChecked (fisherYates [1, 2] 2 rand) 2 repeatedEdges 8 = none := by
    rcases fisherYates_pair rand with h | h <;> rw [h] <;> decide
  refine ⟨by decide, by decide, ?_, by decide, ?_⟩
  · rcases fisherYates_pair rand with h | h <;> rw [h] <;> decide
  · unfold randomizerChecked
    simp only [hnone]

/-- C10 at the failing input: the accepted edge list `1-2`, `2-1` (four times)
has no self-loop edge, its distinct vertices are `[1,2]` and it has the cycle
`1 → 2 → 1`. With the first draw 7 the shuffle leaves the order `[1,2]`, in
which the four edges `2-1` point backward; the scratch arrays have 3 cells, so
the fourth store falls outside them and `randomizer` has no candidate to
return whose removal would leave the graph acyclic. -/
theorem C10_candidate_lost_to_overflow :
    (duplicateRemover (vertexArray cycleRepeatedEdges) 10).uniqueList = [1, 2] ∧
    (∀ e ∈ cycleRepeatedEdges, e.U ≠ e.V) ∧
    (∀ e ∈ cycleRepeatedEdges, e.U ∈ ([1, 2] : List Int) ∧ e.V ∈ ([1, 2] : List Int)) ∧
    fisherYates [1, 2] 2 (fun _ => 7) = [1, 2] ∧
    (cycleRepeatedEdges.filter (fun e => decide (backward [1, 2] e))).length = 4 ∧
    scratchCapacity 2 = 3 ∧
    randomizerChecked [1, 2] 2 cycleRepeatedEdges 5 (fun _ => 7) = none ∧
    ¬ acyclic cycleRepeatedEdges := by
  have hnone : collectChecked (fisherYates [1, 2] 2 (fun _ => 7)) 2 cycleRepeatedEdges 5 =
      none := by decide
  refine ⟨by decide, by decide, by decide, by decide, by decide, by decide, ?_, ?_⟩
  · unfold randomizerChecked
    simp only [hnone]
  · intro h
    have h12 : arc cycleRepeatedEdges 1 2 := by
      show (⟨1, 2⟩ : edge) ∈ cycleRepeatedEdges
      decide
    have h21 : arc cycleRepeatedEdges 2 1 := by
      show (⟨2, 1⟩ : edge) ∈ cycleRepeatedEdges
      decide
    exact h 1 (Relation.TransGen.tail (Relation.TransGen.single h12) h21)

end FAS
